import Mathlib

/-!
Verification of the workflow-orchestration and reranking core of the
Research_Agent application (backend/services/rerank.py,
backend/langgraph/nodes/{retrieval,mcp,ingestion,analysis}_nodes.py and
backend/langgraph/graphs.py), as a shallow embedding.

Scores that are Python floats are modelled as rationals; external
collaborators (cross-encoder model, embedder, arXiv client, Postgres
repository, MCP tool transports) are modelled as explicit environment
records, so that every run of the Python code corresponds to one choice
of environment.
-/

/-- Mirrors `backend.models.states.RetrievalResult` (fields `page_from`,
`page_to`, `metadata` are never read by the verified operations and are
omitted). -/
structure RetrievalResult where
  chunk_id : String
  paper_id : String
  section_id : String
  text : String
  score : ℚ
  source : String
deriving DecidableEq

/-- Mirrors `backend.models.states.RankedResult`. -/
structure RankedResult where
  chunk_id : String
  paper_id : String
  section_id : String
  text : String
  primary_score : ℚ
  rerank_score : ℚ
  combined_score : ℚ
  rank : ℕ
  source : String
deriving DecidableEq

/-- Ordering used by `sorted(results, key=lambda x: x.score, reverse=True)`:
`a` may come before `b` when its retrieval score is not smaller. -/
def byScore (a b : RetrievalResult) : Prop := b.score ≤ a.score

instance : DecidableRel byScore := fun a b => inferInstanceAs (Decidable (_ ≤ _))

instance : IsTotal RetrievalResult byScore := ⟨fun a b => le_total b.score a.score⟩

instance : IsTrans RetrievalResult byScore := ⟨fun _ _ _ hab hbc => le_trans hbc hab⟩

/-- Ordering used by `ranked.sort(key=lambda x: x.combined_score, reverse=True)`. -/
def byCombined (a b : RankedResult) : Prop := b.combined_score ≤ a.combined_score

instance : DecidableRel byCombined := fun a b => inferInstanceAs (Decidable (_ ≤ _))

instance : IsTotal RankedResult byCombined := ⟨fun a b => le_total b.combined_score a.combined_score⟩

instance : IsTrans RankedResult byCombined := ⟨fun _ _ _ hab hbc => le_trans hbc hab⟩

/-- `ranked.sort(key=lambda x: x.combined_score, reverse=True)` (Python's
stable sort, modelled by stable insertion sort). -/
def sortByCombined (l : List RankedResult) : List RankedResult :=
  l.insertionSort byCombined

/-- The rank reassignment loop `for idx, r in enumerate(l): r.rank = idx + 1`,
generalised over the first rank. -/
def assignRanksFrom : ℕ → List RankedResult → List RankedResult
  | _, [] => []
  | n, r :: rs => { r with rank := n } :: assignRanksFrom (n + 1) rs

def assignRanks (l : List RankedResult) : List RankedResult := assignRanksFrom 1 l

/-- Conversion performed by `_fallback_rerank` (and by
`semantic_diversity_rerank` for a selected result): all three scores equal
the primary retrieval score. -/
def convertPlain (n : ℕ) (c : RetrievalResult) : RankedResult :=
  ⟨c.chunk_id, c.paper_id, c.section_id, c.text, c.score, c.score, c.score, n, c.source⟩

/-- The enumeration loop of `_fallback_rerank`, converting each result with
1-based ranks starting at `n`. -/
def convertAllFrom : ℕ → List RetrievalResult → List RankedResult
  | _, [] => []
  | n, c :: cs => convertPlain n c :: convertAllFrom (n + 1) cs

/-- `AdvancedRanker._fallback_rerank`: sort by retrieval score descending,
truncate to `top_k`, assign contiguous ranks. -/
def fallbackRerank (results : List RetrievalResult) (topK : ℕ) : List RankedResult :=
  convertAllFrom 1 ((results.insertionSort byScore).take topK)

/-- Environment of `AdvancedRanker`: the external cross-encoder model and the
external embedder.  `ce = none` models an unavailable cross-encoder
(`self.cross_encoder is None`); `embed = none` models an embedder whose
construction or `encode` call raises.  When present, `embed` yields for each
passage text the row of the embedding matrix after the L2-normalisation step
(`embeddings / (norm + 1e-8)`); the normalisation is folded into the
environment because square roots are not rational, and every concrete run of
the code corresponds to some such function. -/
structure RankEnv where
  ce : Option (String → String → ℚ)
  embed : Option (String → List ℚ)

/-- `np.min` over a score list (the list is nonempty whenever used). -/
def minQ : List ℚ → ℚ
  | [] => 0
  | c :: cs => cs.foldl min c

/-- `np.max` over a score list (the list is nonempty whenever used). -/
def maxQ : List ℚ → ℚ
  | [] => 0
  | c :: cs => cs.foldl max c

/-- The float literal `1e-8` used in score normalisation. -/
def eps8 : ℚ := 1 / 100000000

/-- Builds the provisionally ranked list of `cross_encoder_rerank`:
`rerank_score` is the normalised model score and
`combined_score = 0.5 * result.score + 0.5 * ce_score`. -/
def mkCrossRanked : ℕ → List (RetrievalResult × ℚ) → List RankedResult
  | _, [] => []
  | n, (r, ce) :: rest =>
    ⟨r.chunk_id, r.paper_id, r.section_id, r.text, r.score, ce,
      1 / 2 * r.score + 1 / 2 * ce, n, r.source⟩ :: mkCrossRanked (n + 1) rest

/-- `AdvancedRanker.cross_encoder_rerank`: score each (query, passage) pair,
min-max normalise the scores, combine `0.5 * primary + 0.5 * normalised`,
sort descending by combined score, truncate to `top_k`, reassign ranks.
Falls back to `_fallback_rerank` when the model is unavailable. -/
def crossEncoderRerank (env : RankEnv) (query : String)
    (results : List RetrievalResult) (topK : ℕ) : List RankedResult :=
  match env.ce with
  | none => fallbackRerank results topK
  | some f =>
    match results with
    | [] => []
    | _ :: _ =>
      let scores := results.map fun r => f query r.text
      let mn := minQ scores
      let mx := maxQ scores
      let normScores := scores.map fun s => (s - mn) / (mx - mn + eps8)
      assignRanks ((sortByCombined (mkCrossRanked 1 (results.zip normScores))).take topK)

/-- Dot product `np.dot` of two embedding rows. -/
def dotQ (v w : List ℚ) : ℚ := ((v.zip w).map fun p => p.1 * p.2).sum

/-- Scanning loop behind `np.argmax`: keeps the first index attaining the
maximum seen so far, updating only on a strictly larger value. -/
def argmaxGo : ℕ → ℕ → ℚ → List RetrievalResult → ℕ
  | _, best, _, [] => best
  | i, best, bestScore, c :: cs =>
    if bestScore < c.score then argmaxGo (i + 1) i c.score cs
    else argmaxGo (i + 1) best bestScore cs

/-- `np.argmax([r.score for r in results])`: index of the first maximal
retrieval score (numpy returns the first occurrence). -/
def argmaxScore (results : List RetrievalResult) : ℕ :=
  argmaxGo 1 0 (match results with | [] => 0 | c :: _ => c.score) (results.drop 1)

/-- The inner candidate loop of MMR: first candidate strictly improving the
best MMR score so far wins (`best_score` starts at `-inf`, updates on
`mmr_score > best_score`).  `remaining` is kept in ascending index order,
matching CPython's small-int set iteration order; the spec's tie-break
"by original ordering" is this order. -/
def pickBest (remaining : List ℕ) (f : ℕ → ℚ) : Option ℕ :=
  remaining.foldl
    (fun acc i =>
      match acc with
      | none => some i
      | some b => if f b < f i then some i else acc)
    none

/-- `max(similarities)` of a candidate against the already selected rows. -/
def maxSimTo (emb : ℕ → List ℚ) (selected : List ℕ) (i : ℕ) : ℚ :=
  maxQ (selected.map fun j => dotQ (emb i) (emb j))

/-- One MMR score: `diversity_weight * relevance - (1 - diversity_weight) * redundancy`. -/
def mmrScore (w : ℚ) (rel : ℕ → ℚ) (emb : ℕ → List ℚ) (selected : List ℕ) (i : ℕ) : ℚ :=
  w * rel i - (1 - w) * maxSimTo emb selected i

/-- The greedy selection loop of `semantic_diversity_rerank`; the iteration
count `min(top_k - 1, len(remaining_indices))` is fixed before the loop. -/
def mmrLoop (w : ℚ) (rel : ℕ → ℚ) (emb : ℕ → List ℚ) :
    ℕ → List ℕ → List ℕ → List ℕ
  | 0, selected, _ => selected
  | fuel + 1, selected, remaining =>
    match pickBest remaining (mmrScore w rel emb selected) with
    | none => selected
    | some best => mmrLoop w rel emb fuel (selected ++ [best]) (remaining.erase best)

/-- Builds the output of `semantic_diversity_rerank` from the selected index
sequence; `results[idx]` is always in range, so the `getD` default is never
used.  Scores: `rerank_score` and `combined_score` both equal the primary
score; ranks are 1-based in selection order. -/
def mkDiversityOut (results : List RetrievalResult) : ℕ → List ℕ → List RankedResult
  | _, [] => []
  | n, i :: is =>
    convertPlain n (results.getD i ⟨"", "", "", "", 0, ""⟩) ::
      mkDiversityOut results (n + 1) is

/-- `AdvancedRanker.semantic_diversity_rerank` (MMR).  Seeds with the first
highest-score result, then greedily adds the candidate maximising
`diversity_weight * relevance - (1 - diversity_weight) * max_similarity`.
Any embedder failure falls back to `_fallback_rerank`. -/
def semanticDiversityRerank (env : RankEnv) (results : List RetrievalResult)
    (topK : ℕ) (diversityWeight : ℚ) : List RankedResult :=
  match results with
  | [] => []
  | _ :: _ =>
    match env.embed with
    | none => fallbackRerank results topK
    | some embedText =>
      let emb : ℕ → List ℚ := fun i => embedText ((results.getD i ⟨"", "", "", "", 0, ""⟩).text)
      let rel : ℕ → ℚ := fun i => (results.getD i ⟨"", "", "", "", 0, ""⟩).score
      let first := argmaxScore results
      let remaining := ((List.range results.length).erase first)
      let fuel := min (topK - 1) remaining.length
      let selected := mmrLoop diversityWeight rel emb fuel [first] remaining
      mkDiversityOut results 1 selected

/-- The configuration errors `ensemble_rerank` raises before any scoring. -/
inductive RerankError where
  | lengthMismatch
  | weightsNotNormalized
deriving DecidableEq

/-- The linearly-decaying rank score `1.0 - (result.rank - 1) / max(len(ranked_list), 1)`. -/
def rankScoreIn (len : ℕ) (r : RankedResult) : ℚ :=
  1 - ((r.rank : ℚ) - 1) / (max len 1 : ℕ)

/-- The aggregated ensemble score of a chunk id: each member strategy
contributes `weight * rank_score` for every entry of its ranking carrying
that chunk id, and contributes nothing when the chunk id is absent. -/
def ensembleScoreOf (members : List (List RankedResult × ℚ)) (cid : String) : ℚ :=
  (members.map fun m =>
    (((m.1.filter fun r => r.chunk_id = cid).map fun r => m.2 * rankScoreIn m.1.length r)).sum).sum

/-- `AdvancedRanker.ensemble_rerank`.  Validation happens before the scoring
block: an empty candidate list short-circuits to `[]` first, then mismatched
strategy/weight lengths and weights not summing to 1.0 within 0.01 raise
`ValueError`.  Member strategies run over the full candidate list; unknown
strategy names are skipped; if none remain, the fallback is used.  Final
`combined_score = 0.5 * primary + 0.5 * ensemble_score`, sorted descending,
truncated to `top_k`, ranks reassigned. -/
def ensembleRerank (env : RankEnv) (query : String) (results : List RetrievalResult)
    (topK : ℕ) (strategies : List String) (weights : List ℚ) :
    Except RerankError (List RankedResult) :=
  match results with
  | [] => .ok []
  | _ :: _ =>
    if strategies.length ≠ weights.length then .error .lengthMismatch
    else if 1 / 100 < |weights.sum - 1| then .error .weightsNotNormalized
    else
      let members := (strategies.zip weights).filterMap fun sw =>
        if sw.1 = "cross_encoder" then
          some (crossEncoderRerank env query results results.length, sw.2)
        else if sw.1 = "semantic_diversity" then
          some (semanticDiversityRerank env results results.length (3 / 10), sw.2)
        else none
      match members with
      | [] => .ok (fallbackRerank results topK)
      | _ :: _ =>
        let ranked := results.map fun r =>
          let ens := ensembleScoreOf members r.chunk_id
          RankedResult.mk r.chunk_id r.paper_id r.section_id r.text r.score ens
            (1 / 2 * r.score + 1 / 2 * ens) 0 r.source
        .ok (assignRanks ((sortByCombined ranked).take topK))

/-- Error strings recorded by the node-level exception handlers. -/
def retrievalFailedMsg : String := "Retrieval failed"

def rerankingFailedMsg : String := "Reranking failed"

def searchFailedMsg : String := "ArXiv search failed"

def duplicateCheckFailedMsg : String := "Duplicate check failed"

def ingestionFailedMsg : String := "Ingestion failed"

/-- Mirrors `backend.models.states.MCPContext`. -/
structure MCPContext where
  tool_name : String
  query : String
  result_limit : ℕ
  timeout : ℕ
deriving DecidableEq

/-- Mirrors `backend.models.states.MCPToolResult` (`execution_time` modelled
as a rational). -/
structure MCPToolResult where
  tool_name : String
  success : Bool
  results : List RetrievalResult
  error : Option String
  execution_time : ℚ
deriving DecidableEq

/-- Mirrors `backend.models.states.GapAnalysis` (the `findings` lists read by
the aggregate step, plus the confidence score; `faithfulness_score` and
`sources` are never read by the verified operations). -/
structure GapAnalysis where
  identified_gaps : List String
  research_areas : List String
  missing_benchmarks : List String
  underexplored_topics : List String
  confidence_score : ℚ
deriving DecidableEq

/-- Mirrors `backend.models.states.DesignSuggestion`. -/
structure DesignSuggestion where
  suggested_approaches : List String
  architectural_improvements : List String
  implementation_strategies : List String
  trade_offs : List String
  confidence_score : ℚ
deriving DecidableEq

/-- Mirrors `backend.models.states.PatternDetection`. -/
structure PatternDetection where
  patterns_found : List String
  trend_analysis : List String
  emerging_methods : List String
  confidence_score : ℚ
deriving DecidableEq

/-- Mirrors `backend.models.states.FutureDirections`. -/
structure FutureDirections where
  next_steps : List String
  open_questions : List String
  future_applications : List String
  confidence_score : ℚ
deriving DecidableEq

/-- Mirrors `backend.models.states.ResearchState` (timestamps omitted;
`analysis_type` and `user_query` kept as opaque strings). -/
structure ResearchState where
  user_query : String
  analysis_type : String
  retrieval_results : List RetrievalResult
  retrieval_limit : ℕ
  ranked_results : List RankedResult
  rerank_strategy : String
  rerank_limit : ℕ
  use_mcp : Bool
  mcp_enabled : Bool
  mcp_context : Option MCPContext
  mcp_results : List RetrievalResult
  mcp_tool_result : Option MCPToolResult
  should_use_mcp : Bool
  coverage_threshold : ℚ
  coverage_score : ℚ
  gap_analysis : Option GapAnalysis
  design_suggestions : Option DesignSuggestion
  pattern_detection : Option PatternDetection
  future_directions : Option FutureDirections
  error : Option String
deriving DecidableEq

/-- The coverage computation of `retrieve_from_qdrant_node`:
`float(np.mean([r.score for r in retrieval_results[:5]]))` over the raw
retrieval results, in retrieval order, and `0.0` when there are none. -/
def coverageScore (results : List RetrievalResult) : ℚ :=
  match results with
  | [] => 0
  | _ :: _ =>
    ((results.take 5).map fun r => r.score).sum / ((results.take 5).length : ℚ)

/-- `retrieve_from_qdrant_node`: the embedder/store/retriever stack is an
external collaborator, modelled as `searchResults` (`none` when the search
raises, in which case only the error field is set). -/
def retrieveFromQdrantNode (searchResults : Option (List RetrievalResult))
    (s : ResearchState) : ResearchState :=
  match searchResults with
  | none => { s with error := some retrievalFailedMsg }
  | some rs => { s with retrieval_results := rs, coverage_score := coverageScore rs }

/-- `rerank_results_node`.  `settings.rerank_strategy or state.rerank_strategy`
and `settings.rerank_top_k or state.rerank_limit` are Python falsy-or, modelled
by treating the empty string and 0 as falsy.  Unknown strategies use the
fallback; the ensemble call uses the hard-coded strategies
`["cross_encoder", "semantic_diversity"]` and weights `[0.6, 0.4]`, whose
validation never fails, but a hypothetical `ValueError` would be caught by the
node and recorded in the error field with the ranked results unchanged. -/
def rerankResultsNode (settingsStrategy : String) (settingsTopK : ℕ)
    (env : RankEnv) (s : ResearchState) : ResearchState :=
  match s.retrieval_results with
  | [] => s
  | _ :: _ =>
    let strat := if settingsStrategy = "" then s.rerank_strategy else settingsStrategy
    let topK := if settingsTopK = 0 then s.rerank_limit else settingsTopK
    if strat = "cross_encoder" then
      { s with ranked_results := crossEncoderRerank env s.user_query s.retrieval_results topK }
    else if strat = "semantic_diversity" then
      { s with ranked_results := semanticDiversityRerank env s.retrieval_results topK (3 / 10) }
    else if strat = "ensemble" then
      match ensembleRerank env s.user_query s.retrieval_results topK
          ["cross_encoder", "semantic_diversity"] [6 / 10, 4 / 10] with
      | .ok l => { s with ranked_results := l }
      | .error _ => { s with error := some rerankingFailedMsg }
    else
      { s with ranked_results := fallbackRerank s.retrieval_results topK }

/-- The decision logic of `check_coverage_node`: trigger iff MCP is globally
enabled, requested for the run, and the coverage score is strictly below the
threshold. -/
def checkCoverageDecision (mcpEnabled useMcp : Bool) (cov threshold : ℚ) : Bool :=
  mcpEnabled && useMcp && decide (cov < threshold)

/-- `check_coverage_node`: resets `should_use_mcp`, applies the decision
logic, and on triggering prepares the default `arxiv_latest` tool context
with the original query, result limit 10 and timeout 30. -/
def checkCoverageNode (s : ResearchState) : ResearchState :=
  let s := { s with should_use_mcp := false }
  if s.mcp_enabled = false then s
  else if s.use_mcp = false then s
  else if s.coverage_score < s.coverage_threshold then
    { s with should_use_mcp := true,
             mcp_context := some ⟨"arxiv_latest", s.user_query, 10, 30⟩ }
  else s

/-- Environment of the MCP gateway: the `MCPToolResult` each tool handler
would return for this run (handlers catch their own exceptions and return
`success=False` results, so they are total). -/
structure MCPEnv where
  arxivLatest : MCPToolResult
  googleScholar : MCPToolResult
  semanticSearch : MCPToolResult

/-- `_run_mcp_tools`: dispatch on `tool_name`; unknown tools yield no
results; a tool result with `success=False` also yields no results. -/
def runMcpTools (env : MCPEnv) (ctx : MCPContext) : List RetrievalResult :=
  let outcome :=
    if ctx.tool_name = "arxiv_latest" then some env.arxivLatest
    else if ctx.tool_name = "google_scholar" then some env.googleScholar
    else if ctx.tool_name = "semantic_search" then some env.semanticSearch
    else none
  match outcome with
  | none => []
  | some res => if res.success then res.results else []

/-- `invoke_mcp_node`: when MCP is due and a context is set, runs the tools
and records an `MCPToolResult` whose `success` flag is
`len(mcp_results) > 0` and whose `error` field is left at its default
`None`. -/
def invokeMcpNode (env : MCPEnv) (s : ResearchState) : ResearchState :=
  match s.should_use_mcp, s.mcp_context with
  | true, some ctx =>
    let rs := runMcpTools env ctx
    { s with mcp_results := rs,
             mcp_tool_result := some ⟨ctx.tool_name, decide (0 < rs.length), rs, none, 0⟩ }
  | _, _ => s

/-- One update of the Python dict comprehension
`{r.chunk_id: r for r in state.ranked_results}`: an existing key keeps its
position but takes the new value; a new key is appended. -/
def insertDictEntry (acc : List RankedResult) (r : RankedResult) : List RankedResult :=
  if (acc.map fun x => x.chunk_id).contains r.chunk_id then
    acc.map fun x => if x.chunk_id = r.chunk_id then r else x
  else acc ++ [r]

/-- The dict comprehension over the existing ranked results, as its
insertion-ordered value list. -/
def dictOfRanked (locals : List RankedResult) : List RankedResult :=
  locals.foldl insertDictEntry []

/-- Conversion of an external retrieval result inside
`merge_mcp_results_node`: `primary_score = rerank_score = combined_score =
mcp_result.score`, with the provisional rank `len(ranked_dict) + idx + 1`. -/
def convertMcp (m : RetrievalResult) (n : ℕ) : RankedResult :=
  ⟨m.chunk_id, m.paper_id, m.section_id, m.text, m.score, m.score, m.score, n, m.source⟩

/-- The external-result insertion loop of `merge_mcp_results_node`: `idx`
enumerates the full external list; an external result whose `chunk_id` is
already a key of the dict is skipped, otherwise its conversion is appended
with provisional rank `len(ranked_dict) + idx + 1`. -/
def mergeCoreAux : List RankedResult → ℕ → List RetrievalResult → List RankedResult
  | dict, _, [] => dict
  | dict, idx, m :: ms =>
    if (dict.map fun x => x.chunk_id).contains m.chunk_id then
      mergeCoreAux dict (idx + 1) ms
    else
      mergeCoreAux (dict ++ [convertMcp m (dict.length + idx + 1)]) (idx + 1) ms

/-- The merged, insertion-ordered value list of `merge_mcp_results_node`,
before re-sorting. -/
def mergeCore (locals : List RankedResult) (mcp : List RetrievalResult) : List RankedResult :=
  mergeCoreAux (dictOfRanked locals) 0 mcp

/-- `merge_mcp_results_node`: with no external results the state is returned
unchanged; otherwise the merged values are re-sorted descending by combined
score, all ranks are reassigned 1..N, and the list is truncated to
`state.rerank_limit`. -/
def mergeMcpResults (locals : List RankedResult) (mcp : List RetrievalResult)
    (limit : ℕ) : List RankedResult :=
  match mcp with
  | [] => locals
  | _ :: _ => (assignRanks (sortByCombined (mergeCore locals mcp))).take limit

/-- `merge_mcp_results_node` at state level. -/
def mergeMcpResultsNode (s : ResearchState) : ResearchState :=
  match s.mcp_results with
  | [] => s
  | _ :: _ =>
    { s with ranked_results := mergeMcpResults s.ranked_results s.mcp_results s.rerank_limit }

/-- `str.lower` restricted to the ASCII range (codepoints are compared as in
the Python source; non-ASCII letters are erased by the following regex
stage either way). -/
def pyLowerChar (c : Char) : Char :=
  if 65 ≤ c.toNat ∧ c.toNat ≤ 90 then Char.ofNat (c.toNat + 32) else c

/-- Membership in the regex class `[a-z0-9]`. -/
def isLowerAlnum (c : Char) : Bool :=
  (97 ≤ c.toNat && c.toNat ≤ 122) || (48 ≤ c.toNat && c.toNat ≤ 57)

/-- Membership in the regex class `\s` (ASCII whitespace). -/
def isPySpace (c : Char) : Bool :=
  c.toNat = 32 || c.toNat = 9 || c.toNat = 10 || c.toNat = 13 || c.toNat = 11 || c.toNat = 12

/-- One character of `re.sub(r"[^a-z0-9\s]", " ", t)` (applied after
lowering): anything outside `[a-z0-9]` and `\s` becomes a space. -/
def punctToSpace (c : Char) : Char :=
  if isLowerAlnum c || isPySpace c then c else ' '

/-- `re.sub(r"\s+", " ", t)`: each maximal whitespace run becomes one space.
The boolean records whether the previous character was whitespace. -/
def collapseAux : Bool → List Char → List Char
  | _, [] => []
  | prevSp, c :: rest =>
    if isPySpace c then
      if prevSp then collapseAux true rest
      else ' ' :: collapseAux true rest
    else c :: collapseAux false rest

/-- `str.strip()`: remove leading and trailing whitespace. -/
def stripChars (l : List Char) : List Char :=
  ((l.dropWhile isPySpace).reverse.dropWhile isPySpace).reverse

/-- `str.split()` with no argument: maximal runs of non-whitespace; the
accumulator holds the current token reversed. -/
def splitAux : List Char → List Char → List (List Char)
  | acc, [] => if acc = [] then [] else [acc.reverse]
  | acc, c :: rest =>
    if isPySpace c then
      if acc = [] then splitAux [] rest else acc.reverse :: splitAux [] rest
    else splitAux (c :: acc) rest

def splitWs (l : List Char) : List (List Char) := splitAux [] l

/-- The fixed stopword set of `_title_fingerprint`. -/
def stopwords : List String :=
  ["the", "a", "an", "of", "and", "for", "on", "in", "to", "with"]

/-- `" ".join(toks)`. -/
def joinSpace : List (List Char) → List Char
  | [] => []
  | [t] => t
  | t :: t2 :: ts => t ++ ' ' :: joinSpace (t2 :: ts)

/-- `_title_fingerprint` on the character list: lowercase, map
non-alphanumerics to spaces, collapse whitespace and strip, split, remove
stopwords, join with single spaces. -/
def fpChars (l : List Char) : List Char :=
  joinSpace ((splitWs (stripChars (collapseAux false ((l.map pyLowerChar).map punctToSpace)))).filter
    fun w => !(stopwords.contains (String.mk w)))

/-- `ingestion_nodes._title_fingerprint`. -/
def titleFingerprint (s : String) : String := String.mk (fpChars s.data)

/-- Status enum of the ingestion workflow
(`backend.models.states.IngestionStatus`). -/
inductive IngestionStatus where
  | idle
  | searching
  | checkingDuplicates
  | ingesting
  | completed
  | error
deriving DecidableEq

/-- One raw arXiv search result, as read by `check_duplicates_node`
(`result.get("arxiv_id")`, `result.get("title", "")`). -/
structure ArxivPaper where
  arxiv_id : String
  title : String
deriving DecidableEq

instance : DecidableEq (Except String ℕ) := fun a b =>
  match a, b with
  | .ok x, .ok y => decidable_of_iff (x = y) (by simp)
  | .error x, .error y => decidable_of_iff (x = y) (by simp)
  | .ok _, .error _ => isFalse (by simp)
  | .error _, .ok _ => isFalse (by simp)

/-- Outcome of `_ingest_single_pdf` and its surrounding per-item handling in
`ingest_pdfs_node`: the downloaded item's path, whether the file exists on
disk, and the external parse/chunk/embed/store outcome (chunk count or
error). -/
structure IngestItem where
  pdfPath : Option String
  onDisk : Bool
  outcome : Except String ℕ
deriving DecidableEq

/-- Mirrors `backend.models.states.IngestionState` (timestamps omitted;
progress as a rational). -/
structure IngestionState where
  days_back : ℕ
  max_results : ℕ
  status : IngestionStatus
  docs_found : ℕ
  docs_existing : ℕ
  docs_new : ℕ
  docs_ingested : ℕ
  docs_failed : ℕ
  progress_percent : ℚ
  arxiv_results : List ArxivPaper
  error : Option String
deriving DecidableEq

/-- Environment of one ingestion run: the arXiv search outcome (`none` when
the search raises), the Postgres repository (`none` when its construction
raises, else the persisted fingerprints and arXiv ids), and the download
outcome (`none` when downloading raises). -/
structure IngestionEnv where
  searchOutcome : Option (List ArxivPaper)
  repo : Option (List String × List String)
  downloads : Option (List IngestItem)

/-- The default-constructed `IngestionState` for a run. -/
def initialIngestionState (daysBack maxResults : ℕ) : IngestionState :=
  ⟨daysBack, maxResults, .idle, 0, 0, 0, 0, 0, 0, [], none⟩

/-- `search_arxiv_node`. -/
def searchArxivNode (env : IngestionEnv) (s : IngestionState) : IngestionState :=
  match env.searchOutcome with
  | none => { s with status := .error, error := some searchFailedMsg }
  | some rs =>
    { s with status := .searching, arxiv_results := rs, docs_found := rs.length,
             progress_percent := 25 }

/-- The keep/skip classification of `check_duplicates_node`: a paper is kept
as new iff its `arxiv_id` is not a persisted id and its title fingerprint is
not a persisted fingerprint. -/
def newPapers (fps ids : List String) (rs : List ArxivPaper) : List ArxivPaper :=
  rs.filter fun r => !(ids.contains r.arxiv_id) && !(fps.contains (titleFingerprint r.title))

/-- `check_duplicates_node`: sets status and progress, classifies against the
persisted fingerprints/ids, and when nothing new remains marks the run
COMPLETED at 100% on the spot.  A repository failure is caught and recorded
as an ERROR status. -/
def checkDuplicatesNode (env : IngestionEnv) (s : IngestionState) : IngestionState :=
  let s := { s with status := .checkingDuplicates, progress_percent := 40 }
  match env.repo with
  | none => { s with status := .error, error := some duplicateCheckFailedMsg }
  | some (fps, ids) =>
    let kept := newPapers fps ids s.arxiv_results
    let s := { s with docs_existing := s.arxiv_results.length - kept.length,
                      docs_new := kept.length, arxiv_results := kept }
    if s.docs_new = 0 then
      { s with status := .completed, progress_percent := 100 }
    else s

/-- Per-item accumulation of `ingest_pdfs_node`'s loop:
`(ingested_chunks, failed_count)`. -/
def ingestCounts (items : List IngestItem) : ℕ × ℕ :=
  items.foldl
    (fun acc it =>
      match it.pdfPath, it.onDisk with
      | none, _ => (acc.1, acc.2 + 1)
      | some _, false => (acc.1, acc.2 + 1)
      | some _, true =>
        match it.outcome with
        | .error _ => (acc.1, acc.2 + 1)
        | .ok n => (acc.1 + n, acc.2))
    (0, 0)

/-- `ingest_pdfs_node`.  With nothing new it completes immediately (the
graph normally routes around it in that case).  Otherwise status becomes
INGESTING; a download failure is caught as ERROR; the per-item loop counts
ingested chunks and failures, and progress ends at
`min(90, 40 + 50 * len/len) = 90` when any item was processed. -/
def ingestPdfsNode (env : IngestionEnv) (s : IngestionState) : IngestionState :=
  if s.docs_new = 0 then
    { s with status := .completed, progress_percent := 100 }
  else
    let s := { s with status := .ingesting }
    match env.downloads with
    | none => { s with status := .error, error := some ingestionFailedMsg }
    | some items =>
      let c := ingestCounts items
      { s with docs_ingested := c.1, docs_failed := c.2,
               progress_percent := match items with | [] => s.progress_percent | _ :: _ => 90 }

/-- `finalize_ingestion_node`: COMPLETED unless already ERROR, progress
100%. -/
def finalizeIngestionNode (s : IngestionState) : IngestionState :=
  let s := if s.status = .error then s else { s with status := .completed }
  { s with progress_percent := 100 }

/-- The conditional edge `should_ingest` of the ingestion graph: skip
INGESTING iff `docs_new == 0` or the status is already COMPLETED. -/
def shouldSkipIngest (s : IngestionState) : Bool :=
  s.docs_new = 0 || s.status = .completed

/-- The node-boundary state trace of one ingestion run through the graph
`search_arxiv → check_duplicates → [ingest_pdfs] → finalize`. -/
def ingestionTrace (env : IngestionEnv) (daysBack maxResults : ℕ) : List IngestionState :=
  let s0 := initialIngestionState daysBack maxResults
  let s1 := searchArxivNode env s0
  let s2 := checkDuplicatesNode env s1
  if shouldSkipIngest s2 then [s0, s1, s2, finalizeIngestionNode s2]
  else
    let s3 := ingestPdfsNode env s2
    [s0, s1, s2, s3, finalizeIngestionNode s3]

/-- The aggregate step's output (`final_response` fields read by the
claims). -/
structure AggregateOut where
  recommendations : List String
  sources : List String
  average_confidence : ℚ
deriving DecidableEq

/-- Up-to-three gap recommendations: `"Address gap: " + gap` over the first
three identified gaps, when gap analysis ran. -/
def gapRecs (s : ResearchState) : List String :=
  match s.gap_analysis with
  | none => []
  | some g => (g.identified_gaps.take 3).map fun t => "Address gap: " ++ t

/-- Up-to-three design recommendations. -/
def designRecs (s : ResearchState) : List String :=
  match s.design_suggestions with
  | none => []
  | some d => (d.suggested_approaches.take 3).map fun t => "Implement: " ++ t

/-- Up-to-three pattern recommendations. -/
def patternRecs (s : ResearchState) : List String :=
  match s.pattern_detection with
  | none => []
  | some p => (p.trend_analysis.take 3).map fun t => "Follow trend: " ++ t

/-- The confidence scores of the analyses that ran, in the code's fixed
gap, design, pattern, future order. -/
def confidenceList (s : ResearchState) : List ℚ :=
  (match s.gap_analysis with | none => [] | some g => [g.confidence_score]) ++
  (match s.design_suggestions with | none => [] | some d => [d.confidence_score]) ++
  (match s.pattern_detection with | none => [] | some p => [p.confidence_score]) ++
  (match s.future_directions with | none => [] | some f => [f.confidence_score])

/-- `aggregate_analysis_node`: recommendations concatenated per category,
sources as `list(set(paper_ids))` (modelled order-canonically by `dedup`;
only set-level facts are asserted about it), and the average of the
available confidence scores, `0.0` when none. -/
def aggregateAnalysis (s : ResearchState) : AggregateOut :=
  let recs := gapRecs s ++ designRecs s ++ patternRecs s
  let sources := (s.ranked_results.map fun r => r.paper_id).dedup
  let confs := confidenceList s
  ⟨recs, sources, if confs = [] then 0 else confs.sum / (confs.length : ℚ)⟩

/-- Descending order on rationals, the order in which combined scores are
emitted. -/
def descQ (a b : ℚ) : Prop := b ≤ a

instance : DecidableRel descQ := fun a b => inferInstanceAs (Decidable (_ ≤ _))

instance : IsTotal ℚ descQ := ⟨fun a b => le_total b a⟩

instance : IsTrans ℚ descQ := ⟨fun _ _ _ hab hbc => le_trans hbc hab⟩

instance : IsAntisymm ℚ descQ := ⟨fun _ _ h1 h2 => le_antisymm h2 h1⟩

theorem mem_assignRanksFrom {x : RankedResult} :
    ∀ {n : ℕ} {l : List RankedResult}, x ∈ assignRanksFrom n l →
      ∃ c ∈ l, x.combined_score = c.combined_score := by
  intro n l
  induction l generalizing n with
  | nil => intro hx; simp [assignRanksFrom] at hx
  | cons r rs ih =>
    intro hx
    rw [assignRanksFrom, List.mem_cons] at hx
    rcases hx with hx | hx
    · exact ⟨r, List.mem_cons_self r rs, by rw [hx]⟩
    · obtain ⟨c, hc, he⟩ := ih hx
      exact ⟨c, List.mem_cons_of_mem r hc, he⟩

theorem sorted_assignRanksFrom {l : List RankedResult}
    (h : List.Sorted byCombined l) (n : ℕ) :
    List.Sorted byCombined (assignRanksFrom n l) := by
  induction l generalizing n with
  | nil => exact List.sorted_nil
  | cons r rs ih =>
    rw [List.sorted_cons] at h
    rw [assignRanksFrom, List.sorted_cons]
    refine ⟨?_, ih h.2 (n + 1)⟩
    intro b hb
    obtain ⟨c, hc, he⟩ := mem_assignRanksFrom hb
    have := h.1 c hc
    simp only [byCombined] at this ⊢
    rw [he]
    exact this

theorem map_rank_assignRanksFrom :
    ∀ (n : ℕ) (l : List RankedResult),
      (assignRanksFrom n l).map (fun x => x.rank) = List.range' n l.length := by
  intro n l
  induction l generalizing n with
  | nil => rfl
  | cons r rs ih =>
    rw [assignRanksFrom, List.map_cons, List.length_cons, List.range'_succ, ih (n + 1)]

theorem length_assignRanksFrom (n : ℕ) (l : List RankedResult) :
    (assignRanksFrom n l).length = l.length := by
  induction l generalizing n with
  | nil => rfl
  | cons r rs ih => simp only [assignRanksFrom, List.length_cons, ih]

theorem sorted_sortByCombined (l : List RankedResult) :
    List.Sorted byCombined (sortByCombined l) :=
  List.sorted_insertionSort byCombined l

theorem perm_sortByCombined (l : List RankedResult) :
    (sortByCombined l).Perm l :=
  List.perm_insertionSort byCombined l

theorem sorted_take {R : RankedResult → RankedResult → Prop}
    {l : List RankedResult} (h : List.Sorted R l) (k : ℕ) :
    List.Sorted R (l.take k) :=
  List.Pairwise.sublist (List.take_sublist k l) h

theorem mem_convertAllFrom {x : RankedResult} :
    ∀ {n : ℕ} {l : List RetrievalResult}, x ∈ convertAllFrom n l →
      ∃ c ∈ l, x = convertPlain x.rank c := by
  intro n l
  induction l generalizing n with
  | nil => intro hx; simp [convertAllFrom] at hx
  | cons r rs ih =>
    intro hx
    rw [convertAllFrom, List.mem_cons] at hx
    rcases hx with hx | hx
    · exact ⟨r, List.mem_cons_self r rs, by rw [hx]; rfl⟩
    · obtain ⟨c, hc, he⟩ := ih hx
      exact ⟨c, List.mem_cons_of_mem r hc, he⟩

theorem map_primary_convertAllFrom :
    ∀ (n : ℕ) (l : List RetrievalResult),
      (convertAllFrom n l).map (fun x => x.primary_score) = l.map (fun c => c.score) := by
  intro n l
  induction l generalizing n with
  | nil => rfl
  | cons r rs ih =>
    rw [convertAllFrom, List.map_cons, List.map_cons, ih (n + 1)]
    rfl

theorem map_combined_convertAllFrom :
    ∀ (n : ℕ) (l : List RetrievalResult),
      (convertAllFrom n l).map (fun x => x.combined_score) = l.map (fun c => c.score) := by
  intro n l
  induction l generalizing n with
  | nil => rfl
  | cons r rs ih =>
    rw [convertAllFrom, List.map_cons, List.map_cons, ih (n + 1)]
    rfl

theorem map_rank_convertAllFrom :
    ∀ (n : ℕ) (l : List RetrievalResult),
      (convertAllFrom n l).map (fun x => x.rank) = List.range' n l.length := by
  intro n l
  induction l generalizing n with
  | nil => rfl
  | cons r rs ih =>
    rw [convertAllFrom, List.map_cons, List.length_cons, List.range'_succ, ih (n + 1)]
    rfl

theorem length_convertAllFrom (n : ℕ) (l : List RetrievalResult) :
    (convertAllFrom n l).length = l.length := by
  induction l generalizing n with
  | nil => rfl
  | cons r rs ih => simp only [convertAllFrom, List.length_cons, ih]

theorem sorted_convertAllFrom {l : List RetrievalResult}
    (h : List.Sorted byScore l) (n : ℕ) :
    List.Sorted byCombined (convertAllFrom n l) := by
  induction l generalizing n with
  | nil => exact List.sorted_nil
  | cons r rs ih =>
    rw [List.sorted_cons] at h
    rw [convertAllFrom, List.sorted_cons]
    refine ⟨?_, ih h.2 (n + 1)⟩
    intro b hb
    obtain ⟨c, hc, he⟩ := mem_convertAllFrom hb
    have hrel := h.1 c hc
    simp only [byScore] at hrel
    have hb2 : b.combined_score = c.score := by rw [he]; rfl
    simp only [byCombined]
    rw [hb2]
    exact hrel

theorem sorted_fallbackRerank (results : List RetrievalResult) (topK : ℕ) :
    List.Sorted byCombined (fallbackRerank results topK) :=
  sorted_convertAllFrom
    (List.Pairwise.sublist (List.take_sublist topK _) (List.sorted_insertionSort byScore results)) 1

theorem ranks_fallbackRerank (results : List RetrievalResult) (topK : ℕ) :
    (fallbackRerank results topK).map (fun x => x.rank) =
      List.range' 1 (fallbackRerank results topK).length := by
  rw [fallbackRerank, map_rank_convertAllFrom, length_convertAllFrom]

theorem sorted_scores_insertionSort (results : List RetrievalResult) :
    (results.insertionSort byScore).map (fun c => c.score) =
      (results.map fun c => c.score).insertionSort descQ := by
  apply List.eq_of_perm_of_sorted (r := descQ)
  · exact ((List.perm_insertionSort byScore results).map _).trans
      (List.perm_insertionSort descQ _).symm
  · exact List.pairwise_map.mpr (List.sorted_insertionSort byScore results)
  · exact List.sorted_insertionSort descQ _

/-- C5: for every candidate list and every `top_k`, the fallback reranking
output is the candidates sorted by primary score descending, truncated to
`top_k`, with dense ranks `1..min(N, top_k)`, and with `rerank_score` and
`combined_score` both equal to the primary score; every output entry is the
plain conversion of some input candidate. -/
theorem fallback_rerank_spec (results : List RetrievalResult) (topK : ℕ) :
    (fallbackRerank results topK).map (fun x => x.primary_score) =
        ((results.map fun c => c.score).insertionSort descQ).take topK
    ∧ List.Sorted byCombined (fallbackRerank results topK)
    ∧ (fallbackRerank results topK).map (fun x => x.rank) =
        List.range' 1 (min topK results.length)
    ∧ (fallbackRerank results topK).length = min topK results.length
    ∧ ∀ r ∈ fallbackRerank results topK,
        r.rerank_score = r.primary_score ∧ r.combined_score = r.primary_score ∧
          ∃ c ∈ results, r = convertPlain r.rank c := by
  have hlen : (fallbackRerank results topK).length = min topK results.length := by
    rw [fallbackRerank, length_convertAllFrom, List.length_take,
      List.length_insertionSort]
  refine ⟨?_, sorted_fallbackRerank results topK, ?_, hlen, ?_⟩
  · rw [fallbackRerank, map_primary_convertAllFrom, List.map_take,
      sorted_scores_insertionSort]
  · rw [ranks_fallbackRerank, hlen]
  · intro r hr
    obtain ⟨c, hc, he⟩ := mem_convertAllFrom hr
    have hcr : c ∈ results :=
      (List.perm_insertionSort byScore results).subset
        ((List.take_sublist topK _).subset hc)
    exact ⟨by rw [he]; rfl, by rw [he]; rfl, c, hcr, he⟩

/-- C3 (amended): for every input with a NON-EMPTY candidate list, if the
weight list length differs from the strategy list length or the weights do
not sum to 1.0 within the 0.01 tolerance, ensemble reranking fails with a
configuration error raised by the validation checks that precede the
scoring block; no ranked list is returned.  (With an empty candidate list
the code returns an empty ranked list before validating, see the
counterexample.) -/
theorem ensemble_rerank_config_error (env : RankEnv) (query : String)
    (results : List RetrievalResult) (topK : ℕ) (strategies : List String)
    (weights : List ℚ)
    (hne : results ≠ [])
    (hbad : strategies.length ≠ weights.length ∨ (1 : ℚ) / 100 < |weights.sum - 1|) :
    ∃ e, ensembleRerank env query results topK strategies weights = .error e := by
  obtain ⟨a, l, rfl⟩ := List.exists_cons_of_ne_nil hne
  rw [ensembleRerank]
  by_cases hl : strategies.length ≠ weights.length
  · rw [if_pos hl]
    exact ⟨.lengthMismatch, rfl⟩
  · rcases hbad with h | h
    · exact absurd h hl
    · rw [if_neg hl, if_pos h]
      exact ⟨.weightsNotNormalized, rfl⟩

/-- Witness for C3: one concrete non-empty candidate list with weights
summing to 0.7 is rejected. -/
theorem ensemble_rerank_config_error_witness :
    (([⟨"c", "p", "s", "t", 1 / 2, "q"⟩] : List RetrievalResult) ≠ []
      ∧ ((["cross_encoder"] : List String).length ≠ ([7 / 10] : List ℚ).length
          ∨ (1 : ℚ) / 100 < |([7 / 10] : List ℚ).sum - 1|))
    ∧ ∃ e, ensembleRerank ⟨none, none⟩ "q" [⟨"c", "p", "s", "t", 1 / 2, "q"⟩] 5
        ["cross_encoder"] [7 / 10] = .error e :=
  ⟨⟨by decide, Or.inr (by rw [show |([7 / 10] : List ℚ).sum - 1| = 3 / 10 by norm_num [abs_sub_comm, abs_of_nonneg]]; norm_num)⟩,
    ensemble_rerank_config_error ⟨none, none⟩ "q" _ 5 _ _ (by decide)
      (Or.inr (by rw [show |([7 / 10] : List ℚ).sum - 1| = 3 / 10 by norm_num [abs_sub_comm, abs_of_nonneg]]; norm_num))⟩

/-- Counterexample to C3 as stated: with an EMPTY candidate list and weights
summing to 0.7 (outside the tolerance), the call does NOT fail — the
`if not results: return []` check precedes the validation, so an empty
ranked list is returned. -/
theorem ensemble_rerank_config_error_cex :
    (1 : ℚ) / 100 < |([7 / 10] : List ℚ).sum - 1|
    ∧ ensembleRerank ⟨none, none⟩ "q" [] 5 ["cross_encoder"] [7 / 10] = .ok [] :=
  ⟨by rw [show |([7 / 10] : List ℚ).sum - 1| = 3 / 10 by norm_num [abs_sub_comm, abs_of_nonneg]]; norm_num, rfl⟩

/-- A `ResearchState` with the pydantic field defaults (used to build
concrete runs). -/
def baseResearchState : ResearchState :=
  ⟨"q", "comprehensive", [], 50, [], "ensemble", 20, true, true, none, [], none,
    false, 1 / 2, 0, none, none, none, none, none⟩

/-- An MCP environment whose `arxiv_latest` tool executes successfully but
returns zero results. -/
def mcpEnvEmptySuccess : MCPEnv :=
  ⟨⟨"arxiv_latest", true, [], none, 0⟩, ⟨"google_scholar", true, [], none, 0⟩,
    ⟨"semantic_search", true, [], none, 0⟩⟩

def mcpFailureMsg : String := "connection timed out"

/-- An MCP environment whose `arxiv_latest` tool fails with an error and a
nonempty error description on the handler result. -/
def mcpEnvFailure : MCPEnv :=
  ⟨⟨"arxiv_latest", false, [], some mcpFailureMsg, 0⟩,
    ⟨"google_scholar", true, [], none, 0⟩, ⟨"semantic_search", true, [], none, 0⟩⟩

/-- C10: when the external-tool node runs its tools, the recorded
tool-invocation result's success flag is `len(results) > 0` and its error
field is the default `None`; in particular a successfully executing tool
that returns zero results, and equally a failing tool, are both recorded as
`success = false` with no error description. -/
theorem invoke_mcp_record_spec :
    (∀ (env : MCPEnv) (s : ResearchState) (ctx : MCPContext),
      ((invokeMcpNode env { s with should_use_mcp := true, mcp_context := some ctx }).mcp_tool_result).map
          (fun tr => (tr.tool_name, tr.success, tr.results, tr.error)) =
        some (ctx.tool_name, decide (0 < (runMcpTools env ctx).length),
          runMcpTools env ctx, none))
    ∧ (invokeMcpNode mcpEnvEmptySuccess
        { baseResearchState with should_use_mcp := true, mcp_context := some ⟨"arxiv_latest", "q", 10, 30⟩ }).mcp_tool_result =
      some ⟨"arxiv_latest", false, [], none, 0⟩
    ∧ (invokeMcpNode mcpEnvFailure
        { baseResearchState with should_use_mcp := true, mcp_context := some ⟨"arxiv_latest", "q", 10, 30⟩ }).mcp_tool_result =
      some ⟨"arxiv_latest", false, [], none, 0⟩ :=
  ⟨fun _ _ _ => rfl, by decide, by decide⟩

/-- C7 (amended): the aggregated response's recommendations are the
concatenation of up to 3 gap recommendations, up to 3 design
recommendations and up to 3 pattern recommendations (so up to 9 in total,
not up to 3); its sources are the duplicate-free set of `paper_id`s of the
ranked results; its average confidence times the number of available
analysis confidences equals their sum (hence equals the arithmetic mean
when any analysis ran), and it is 0 when all four analysis results are
null. -/
theorem aggregate_analysis_spec (s : ResearchState) :
    (aggregateAnalysis s).recommendations = gapRecs s ++ designRecs s ++ patternRecs s
    ∧ (gapRecs s).length ≤ 3
    ∧ (designRecs s).length ≤ 3
    ∧ (patternRecs s).length ≤ 3
    ∧ (aggregateAnalysis s).recommendations.length ≤ 9
    ∧ (∀ p, p ∈ (aggregateAnalysis s).sources ↔ ∃ r ∈ s.ranked_results, r.paper_id = p)
    ∧ (aggregateAnalysis s).sources.Nodup
    ∧ (aggregateAnalysis s).average_confidence * ((confidenceList s).length : ℚ) =
        (confidenceList s).sum
    ∧ (aggregateAnalysis { s with gap_analysis := none, design_suggestions := none, pattern_detection := none, future_directions := none }).average_confidence = 0 := by
  have hg : (gapRecs s).length ≤ 3 := by
    rw [gapRecs]
    cases s.gap_analysis with
    | none => simp
    | some g => simpa using List.length_take_le 3 g.identified_gaps
  have hd : (designRecs s).length ≤ 3 := by
    rw [designRecs]
    cases s.design_suggestions with
    | none => simp
    | some d => simpa using List.length_take_le 3 d.suggested_approaches
  have hp : (patternRecs s).length ≤ 3 := by
    rw [patternRecs]
    cases s.pattern_detection with
    | none => simp
    | some p => simpa using List.length_take_le 3 p.trend_analysis
  refine ⟨rfl, hg, hd, hp, ?_, ?_, ?_, ?_, rfl⟩
  · show (gapRecs s ++ designRecs s ++ patternRecs s).length ≤ 9
    rw [List.length_append, List.length_append]
    omega
  · intro p
    show p ∈ (List.map _ s.ranked_results).dedup ↔ _
    rw [List.mem_dedup, List.mem_map]
  · exact List.nodup_dedup _
  · show (if confidenceList s = [] then 0
      else (confidenceList s).sum / ((confidenceList s).length : ℚ)) *
        ((confidenceList s).length : ℚ) = (confidenceList s).sum
    by_cases hc : confidenceList s = []
    · rw [if_pos hc, hc]
      simp
    · rw [if_neg hc]
      rw [div_mul_cancel₀]
      have : (confidenceList s).length ≠ 0 := fun h => hc (List.eq_nil_of_length_eq_zero h)
      exact_mod_cast this

/-- A research state whose gap, design and pattern analyses each produced
three findings. -/
def cexAnalysisState : ResearchState :=
  ⟨"q", "comprehensive", [], 50, [], "ensemble", 20, true, true, none, [], none,
    false, 1 / 2, 0,
    some ⟨["g1", "g2", "g3"], [], [], [], 85 / 100⟩,
    some ⟨["d1", "d2", "d3"], [], [], [], 8 / 10⟩,
    some ⟨[], ["t1", "t2", "t3"], [], 75 / 100⟩,
    none, none⟩

/-- Counterexample to C7 as stated: the aggregate step collects up to three
recommendations from EACH of the gap, design and pattern outputs, so with
three findings in each category the final response carries 9 recommendation
strings, not at most 3. -/
theorem aggregate_analysis_cex :
    (aggregateAnalysis cexAnalysisState).recommendations.length = 9
    ∧ ¬((aggregateAnalysis cexAnalysisState).recommendations.length ≤ 3) := by
  refine ⟨?_, ?_⟩ <;> decide

theorem mem_newPapers (fps ids : List String) (rs : List ArxivPaper) (p : ArxivPaper) :
    p ∈ newPapers fps ids rs ↔
      p ∈ rs ∧ p.arxiv_id ∉ ids ∧ titleFingerprint p.title ∉ fps := by
  simp [newPapers, List.mem_filter, List.contains_eq_any_beq, List.any_eq_true, and_assoc]

/-- C9 (amended): during duplicate checking a paper is kept as new iff its
`arxiv_id` is not a persisted id AND its title fingerprint is not a
persisted fingerprint; consequently two empty fingerprints ARE treated as
duplicates: a new paper whose title fingerprints to the empty string is
skipped as existing whenever some already-persisted paper also has an empty
fingerprint, even if its `arxiv_id` is unknown. -/
theorem check_duplicates_empty_fingerprint (fps ids : List String)
    (rs : List ArxivPaper) (r : ArxivPaper)
    (hfp : titleFingerprint r.title = "") (hmem : "" ∈ fps) :
    r ∉ newPapers fps ids rs
    ∧ ∀ p, p ∈ newPapers fps ids rs ↔
        p ∈ rs ∧ p.arxiv_id ∉ ids ∧ titleFingerprint p.title ∉ fps := by
  refine ⟨?_, mem_newPapers fps ids rs⟩
  intro hin
  have h := (mem_newPapers fps ids rs r).mp hin
  rw [hfp] at h
  exact h.2.2 hmem

/-- Witness for C9: a punctuation-only title fingerprints to the empty
string and such a paper is dropped when the persisted fingerprints contain
the empty string. -/
theorem check_duplicates_empty_fingerprint_witness :
    (titleFingerprint "???" = "" ∧ "" ∈ [""])
    ∧ ((⟨"2401.00001", "???"⟩ : ArxivPaper) ∉ newPapers [""] [] [⟨"2401.00001", "???"⟩]
      ∧ ∀ p, p ∈ newPapers [""] [] [⟨"2401.00001", "???"⟩] ↔
          p ∈ [(⟨"2401.00001", "???"⟩ : ArxivPaper)] ∧ p.arxiv_id ∉ ([] : List String) ∧
            titleFingerprint p.title ∉ [""]) :=
  ⟨⟨by decide, by decide⟩,
    check_duplicates_empty_fingerprint [""] [] [⟨"2401.00001", "???"⟩]
      ⟨"2401.00001", "???"⟩ (by decide) (by decide)⟩

/-- Counterexample to C9 as stated: a new paper with an empty title
fingerprint and an unknown `arxiv_id` is NOT kept as new when a persisted
paper also has an empty fingerprint — the classification drops it, leaving
`docs_new = 0`. -/
theorem check_duplicates_empty_fingerprint_cex :
    titleFingerprint "???" = ""
    ∧ ("2401.00001" ∈ ([] : List String) → False)
    ∧ newPapers [""] [] [⟨"2401.00001", "???"⟩] = []
    ∧ (newPapers [""] [] [⟨"2401.00001", "???"⟩]).length = 0 := by
  refine ⟨?_, ?_, ?_, ?_⟩ <;> decide

/-- The coverage score as the spec's §4.3 words describe it: computed from
the post-initial-rerank RANKED results (mean of the top-5 scores, 0.0 when
none).  Written from the spec for comparison with the code's
`coverageScore`, which reads the raw retrieval results in the retrieve node
instead. -/
def specCoverageOfRanked (l : List RankedResult) : ℚ :=
  match l with
  | [] => 0
  | _ :: _ => ((l.take 5).map fun r => r.combined_score).sum / ((l.take 5).length : ℚ)

/-- C2 (amended): the coverage score is computed in the RETRIEVE node as the
arithmetic mean of the scores of the first five raw retrieval results
(pre-rerank, in retrieval order), 0.0 when there are none; external
augmentation is triggered iff MCP is globally enabled, requested for the
run, and the coverage score is strictly below the threshold — with
threshold 0.5, a score of 0.49 triggers and 0.50 does not. -/
theorem coverage_decision_spec :
    (∀ rs : List RetrievalResult,
      coverageScore rs * (((rs.take 5).length : ℚ)) = ((rs.take 5).map fun r => r.score).sum)
    ∧ coverageScore [] = 0
    ∧ (∀ (searchResults : List RetrievalResult) (s : ResearchState),
        (retrieveFromQdrantNode (some searchResults) s).coverage_score =
          coverageScore searchResults)
    ∧ (∀ s : ResearchState,
        ((checkCoverageNode s).should_use_mcp = true) ↔
          (s.mcp_enabled = true ∧ s.use_mcp = true ∧ s.coverage_score < s.coverage_threshold))
    ∧ (checkCoverageNode { baseResearchState with coverage_score := 49 / 100 }).should_use_mcp = true
    ∧ (checkCoverageNode { baseResearchState with coverage_score := 1 / 2 }).should_use_mcp = false := by
  refine ⟨?_, rfl, fun _ _ => rfl, ?_, by norm_num [checkCoverageNode, baseResearchState], by norm_num [checkCoverageNode, baseResearchState]⟩
  · intro rs
    cases rs with
    | nil => simp [coverageScore]
    | cons a l =>
      rw [coverageScore, div_mul_cancel₀]
      have hne : ((a :: l).take 5) ≠ [] := by simp [List.take]
      have hz : ((a :: l).take 5).length ≠ 0 :=
        fun hz => hne (List.eq_nil_of_length_eq_zero hz)
      exact_mod_cast hz
  · intro s
    simp only [checkCoverageNode]
    split_ifs with h1 h2 h3
    · simp [h1]
    · simp [h2]
    · simp only [Bool.not_eq_false] at h1 h2
      simp [h1, h2, h3]
    · simp only [Bool.not_eq_false] at h1 h2
      simp [h1, h2, h3]

/-- Six retrieval results in descending score order, as a vector store
returns them. -/
def cexRetrievalResults : List RetrievalResult :=
  [⟨"c0", "p0", "s", "t0", 9 / 10, "qdrant"⟩,
   ⟨"c1", "p1", "s", "t1", 85 / 100, "qdrant"⟩,
   ⟨"c2", "p2", "s", "t2", 8 / 10, "qdrant"⟩,
   ⟨"c3", "p3", "s", "t3", 7 / 10, "qdrant"⟩,
   ⟨"c4", "p4", "s", "t4", 6 / 10, "qdrant"⟩,
   ⟨"c5", "p5", "s", "t5", 5 / 10, "qdrant"⟩]

/-- An embedder for which the first five passages are identical and the
sixth is orthogonal. -/
def cexEmbedEnv : RankEnv :=
  ⟨none, some fun t => if t = "t5" then [0, 1] else [1, 0]⟩

/-- The research state after `retrieve → rerank` on a run configured with the
`semantic_diversity` strategy (a documented value of the strategy
setting). -/
def cexCoverageState : ResearchState :=
  rerankResultsNode "semantic_diversity" 2 cexEmbedEnv
    (retrieveFromQdrantNode (some cexRetrievalResults) baseResearchState)

/-- Counterexample to C2 as stated: on this concrete run the state's
coverage score is 0.77 (the mean of the first five RETRIEVAL scores), while
the mean of the scores of the top-5 post-initial-rerank ranked results is
0.75 — the MMR reranker pulled the orthogonal low-score passage up to the
second position.  The primary and combined scores of the ranked results
coincide here, so the discrepancy does not depend on which ranked score the
claim means. -/
theorem coverage_node_cex :
    cexCoverageState.coverage_score = 77 / 100
    ∧ specCoverageOfRanked cexCoverageState.ranked_results = 7 / 10
    ∧ (cexCoverageState.ranked_results.map fun r => r.primary_score) =
        (cexCoverageState.ranked_results.map fun r => r.combined_score)
    ∧ cexCoverageState.coverage_score ≠ specCoverageOfRanked cexCoverageState.ranked_results := by
  have hrange : List.range 6 = [0, 1, 2, 3, 4, 5] := by decide
  have hs0 : (("semantic_diversity" : String) = "") = False := by simp
  have hs1 : (("semantic_diversity" : String) = "cross_encoder") = False := by simp
  have hs2 : (("semantic_diversity" : String) = "semantic_diversity") = True := by simp
  have ht0 : (("t0" : String) = "t5") = False := by simp
  have ht1 : (("t1" : String) = "t5") = False := by simp
  have ht2 : (("t2" : String) = "t5") = False := by simp
  have ht3 : (("t3" : String) = "t5") = False := by simp
  have ht4 : (("t4" : String) = "t5") = False := by simp
  have ht5 : (("t5" : String) = "t5") = True := by simp
  norm_num [cexCoverageState, rerankResultsNode, retrieveFromQdrantNode, coverageScore,
    cexRetrievalResults, baseResearchState, cexEmbedEnv, semanticDiversityRerank,
    argmaxScore, argmaxGo, mmrLoop, pickBest, mmrScore, maxSimTo, dotQ, maxQ, minQ,
    mkDiversityOut, convertPlain, specCoverageOfRanked, hrange, List.erase,
    hs0, hs1, hs2, ht0, ht1, ht2, ht3, ht4, ht5]

theorem searchArxivNode_status (env : IngestionEnv) (s : IngestionState) :
    (searchArxivNode env s).status = .searching ∨ (searchArxivNode env s).status = .error := by
  rw [searchArxivNode]
  cases env.searchOutcome with
  | none => exact Or.inr rfl
  | some rs => exact Or.inl rfl

theorem checkDuplicatesNode_done {env : IngestionEnv} {fps ids : List String}
    (hrepo : env.repo = some (fps, ids)) (s : IngestionState)
    (h0 : (checkDuplicatesNode env s).docs_new = 0) :
    (checkDuplicatesNode env s).status = .completed
    ∧ (checkDuplicatesNode env s).progress_percent = 100 := by
  simp only [checkDuplicatesNode, hrepo] at h0 ⊢
  by_cases hk : (newPapers fps ids s.arxiv_results).length = 0
  · simp [hk]
  · simp [hk] at h0

/-- C6 (amended): for every ingestion run whose duplicate-check node
completes without an internal error (the repository is constructible) and
leaves `docs_new = 0`, the workflow reaches COMPLETED with
`progress_percent = 100` and never enters the INGESTING state.  (When the
duplicate check itself raises, the run instead terminates in the ERROR
status with `docs_new` still 0, see the counterexample.) -/
theorem ingestion_no_new_docs_completes (env : IngestionEnv) (daysBack maxResults : ℕ)
    (fps ids : List String) (hrepo : env.repo = some (fps, ids))
    (h0 : (checkDuplicatesNode env
      (searchArxivNode env (initialIngestionState daysBack maxResults))).docs_new = 0) :
    ((ingestionTrace env daysBack maxResults).getLast?.map fun s => s.status) =
        some .completed
    ∧ ((ingestionTrace env daysBack maxResults).getLast?.map fun s => s.progress_percent) =
        some 100
    ∧ ∀ s ∈ ingestionTrace env daysBack maxResults, s.status ≠ .ingesting := by
  have hdone := checkDuplicatesNode_done hrepo
    (searchArxivNode env (initialIngestionState daysBack maxResults)) h0
  have hskip : shouldSkipIngest (checkDuplicatesNode env
      (searchArxivNode env (initialIngestionState daysBack maxResults))) = true := by
    simp [shouldSkipIngest, h0]
  rw [ingestionTrace]
  simp only [hskip, if_true]
  have hfin : (finalizeIngestionNode (checkDuplicatesNode env
      (searchArxivNode env (initialIngestionState daysBack maxResults)))).status = .completed
      ∧ (finalizeIngestionNode (checkDuplicatesNode env
      (searchArxivNode env (initialIngestionState daysBack maxResults)))).progress_percent = 100 := by
    rw [finalizeIngestionNode, hdone.1]
    exact ⟨rfl, rfl⟩
  refine ⟨?_, ?_, ?_⟩
  · simp [List.getLast?, hfin.1]
  · simp [List.getLast?, hfin.2]
  · intro s hs
    simp only [List.mem_cons, List.mem_singleton] at hs
    rcases hs with h | h | h | h | h
    · rw [h]
      intro hc
      cases hc
    · rcases searchArxivNode_status env (initialIngestionState daysBack maxResults) with h2 | h2 <;>
        rw [h, h2] <;> intro hc <;> cases hc
    · rw [h, hdone.1]
      intro hc
      cases hc
    · rw [h, hfin.1]
      intro hc
      cases hc
    · cases h

/-- An ingestion environment in which the metadata repository cannot be
constructed (its `__init__` raises), while the arXiv search succeeds with no
results. -/
def cexIngestEnvRepoDown : IngestionEnv := ⟨some [], none, some []⟩

/-- Counterexample to C6 as stated: when the repository raises inside the
duplicate check, the node leaves `docs_new = 0` but records status ERROR,
and the finalize node preserves ERROR — the run terminates with status
ERROR, not COMPLETED (`progress_percent` is still forced to 100). -/
theorem ingestion_no_new_docs_cex :
    (checkDuplicatesNode cexIngestEnvRepoDown
      (searchArxivNode cexIngestEnvRepoDown (initialIngestionState 7 100))).docs_new = 0
    ∧ ((ingestionTrace cexIngestEnvRepoDown 7 100).getLast?.map fun s => s.status) =
        some .error
    ∧ (IngestionStatus.error ≠ IngestionStatus.completed) :=
  ⟨rfl, rfl, by decide⟩

/-- Witness for C6: a run over an empty arXiv result list with a reachable,
empty repository completes at 100% without ingesting. -/
theorem ingestion_no_new_docs_witness :
    ((⟨some [], some ([], []), some []⟩ : IngestionEnv).repo = some ([], [])
      ∧ (checkDuplicatesNode ⟨some [], some ([], []), some []⟩
          (searchArxivNode ⟨some [], some ([], []), some []⟩
            (initialIngestionState 7 100))).docs_new = 0)
    ∧ (((ingestionTrace ⟨some [], some ([], []), some []⟩ 7 100).getLast?.map fun s => s.status) =
        some .completed
      ∧ ((ingestionTrace ⟨some [], some ([], []), some []⟩ 7 100).getLast?.map fun s => s.progress_percent) =
        some 100
      ∧ ∀ s ∈ ingestionTrace ⟨some [], some ([], []), some []⟩ 7 100, s.status ≠ .ingesting) :=
  ⟨⟨rfl, rfl⟩,
    ingestion_no_new_docs_completes ⟨some [], some ([], []), some []⟩ 7 100 [] [] rfl rfl⟩

theorem contains_true_iff {l : List String} {a : String} :
    l.contains a = true ↔ a ∈ l := by
  simp [List.contains_eq_any_beq, List.any_eq_true, eq_comm]

theorem contains_false_iff {l : List String} {a : String} :
    l.contains a = false ↔ a ∉ l := by
  rw [← Bool.not_eq_true, not_iff_not]
  exact contains_true_iff

/-- `x` carries the field contents `merge_mcp_results_node` gives a converted
external result: same identifiers and text, and all three scores equal to
the external retrieval score (the provisional rank is reassigned later, so
it is not constrained). -/
def convertedFrom (x : RankedResult) (m : RetrievalResult) : Prop :=
  x.chunk_id = m.chunk_id ∧ x.paper_id = m.paper_id ∧ x.section_id = m.section_id
    ∧ x.text = m.text ∧ x.primary_score = m.score ∧ x.rerank_score = m.score
    ∧ x.combined_score = m.score ∧ x.source = m.source

theorem convertedFrom_convertMcp (m : RetrievalResult) (n : ℕ) :
    convertedFrom (convertMcp m n) m :=
  ⟨rfl, rfl, rfl, rfl, rfl, rfl, rfl, rfl⟩

theorem foldl_insertDict_eq :
    ∀ (l acc : List RankedResult),
      (((acc ++ l).map fun r => r.chunk_id).Nodup) →
      l.foldl insertDictEntry acc = acc ++ l := by
  intro l
  induction l with
  | nil => intro acc _; simp
  | cons r rs ih =>
    intro acc h
    have hnotin : r.chunk_id ∉ acc.map fun x => x.chunk_id := by
      rw [List.map_append] at h
      have hd := List.disjoint_of_nodup_append h
      intro hmem
      exact hd hmem (by simp)
    have hins : insertDictEntry acc r = acc ++ [r] := by
      rw [insertDictEntry, if_neg]
      rw [contains_true_iff]
      exact hnotin
    rw [List.foldl_cons, hins, ih (acc ++ [r]) (by simpa using h)]
    simp

theorem dictOfRanked_eq_self (locals : List RankedResult)
    (hL : (locals.map fun r => r.chunk_id).Nodup) :
    dictOfRanked locals = locals := by
  have := foldl_insertDict_eq locals [] (by simpa using hL)
  simpa [dictOfRanked] using this

theorem mergeCoreAux_keys :
    ∀ (ms : List RetrievalResult),
      (ms.Pairwise fun a b => a.chunk_id ≠ b.chunk_id) →
      ∀ (dict : List RankedResult) (idx : ℕ),
        (mergeCoreAux dict idx ms).map (fun r => r.chunk_id) =
          dict.map (fun r => r.chunk_id) ++
            (ms.filter fun m =>
              !((dict.map fun r => r.chunk_id).contains m.chunk_id)).map
              fun m => m.chunk_id := by
  intro ms
  induction ms with
  | nil => intro _ dict idx; simp [mergeCoreAux]
  | cons m ms ih =>
    intro hM dict idx
    rw [List.pairwise_cons] at hM
    rw [mergeCoreAux]
    by_cases hin : ((dict.map fun r => r.chunk_id).contains m.chunk_id) = true
    · rw [if_pos hin, ih hM.2 dict (idx + 1), List.filter_cons]
      have : (!((dict.map fun r => r.chunk_id).contains m.chunk_id)) = false := by
        rw [hin]; rfl
      rw [this]
      simp
    · have hfalse : ((dict.map fun r => r.chunk_id).contains m.chunk_id) = false :=
        Bool.eq_false_iff.mpr hin
      rw [if_neg hin, ih hM.2 (dict ++ [convertMcp m (dict.length + idx + 1)]) (idx + 1)]
      have hkeys : ((dict ++ [convertMcp m (dict.length + idx + 1)]).map
            fun r => r.chunk_id) = (dict.map fun r => r.chunk_id) ++ [m.chunk_id] := by
        simp [convertMcp]
      have hfc : (ms.filter fun m' =>
            !(((dict ++ [convertMcp m (dict.length + idx + 1)]).map
              fun r => r.chunk_id).contains m'.chunk_id)) =
          ms.filter fun m' => !((dict.map fun r => r.chunk_id).contains m'.chunk_id) := by
        apply List.filter_congr
        intro m' hm'
        have hne : m'.chunk_id ≠ m.chunk_id := fun he => (hM.1 m' hm') he.symm
        rw [hkeys]
        congr 1
        by_cases hc : m'.chunk_id ∈ dict.map fun r => r.chunk_id
        · rw [contains_true_iff.mpr hc,
            contains_true_iff.mpr (List.mem_append_left _ hc)]
        · rw [contains_false_iff.mpr hc, contains_false_iff.mpr]
          simp [List.mem_append, hc, hne]
      rw [hfc, List.filter_cons]
      have : (!((dict.map fun r => r.chunk_id).contains m.chunk_id)) = true := by
        rw [hfalse]; rfl
      rw [this]
      simp [convertMcp]

theorem subset_mergeCoreAux :
    ∀ (ms : List RetrievalResult) (dict : List RankedResult) (idx : ℕ)
      (x : RankedResult), x ∈ dict → x ∈ mergeCoreAux dict idx ms := by
  intro ms
  induction ms with
  | nil => intro dict idx x hx; exact hx
  | cons m ms ih =>
    intro dict idx x hx
    rw [mergeCoreAux]
    by_cases hin : ((dict.map fun r => r.chunk_id).contains m.chunk_id) = true
    · rw [if_pos hin]
      exact ih dict (idx + 1) x hx
    · rw [if_neg hin]
      exact ih _ (idx + 1) x (List.mem_append_left _ hx)

theorem mem_mergeCoreAux :
    ∀ (ms : List RetrievalResult) (dict : List RankedResult) (idx : ℕ)
      (x : RankedResult), x ∈ mergeCoreAux dict idx ms →
      x ∈ dict ∨ ∃ m ∈ ms, convertedFrom x m
        ∧ x.chunk_id ∉ dict.map fun r => r.chunk_id := by
  intro ms
  induction ms with
  | nil => intro dict idx x hx; exact Or.inl hx
  | cons m ms ih =>
    intro dict idx x hx
    rw [mergeCoreAux] at hx
    by_cases hin : ((dict.map fun r => r.chunk_id).contains m.chunk_id) = true
    · rw [if_pos hin] at hx
      rcases ih dict (idx + 1) x hx with h | ⟨m', hm', hconv, hnot⟩
      · exact Or.inl h
      · exact Or.inr ⟨m', List.mem_cons_of_mem m hm', hconv, hnot⟩
    · rw [if_neg hin] at hx
      have hnotm : m.chunk_id ∉ dict.map fun r => r.chunk_id :=
        contains_false_iff.mp (Bool.eq_false_iff.mpr hin)
      rcases ih _ (idx + 1) x hx with h | ⟨m', hm', hconv, hnot⟩
      · rcases List.mem_append.mp h with h | h
        · exact Or.inl h
        · rcases List.mem_singleton.mp h with rfl
          exact Or.inr ⟨m, List.mem_cons_self m ms,
            convertedFrom_convertMcp m _, hnotm⟩
      · refine Or.inr ⟨m', List.mem_cons_of_mem m hm', hconv, fun hc => hnot ?_⟩
        rw [List.map_append]
        exact List.mem_append_left _ hc

theorem mergeCoreAux_adds :
    ∀ (ms : List RetrievalResult),
      (ms.Pairwise fun a b => a.chunk_id ≠ b.chunk_id) →
      ∀ (dict : List RankedResult) (idx : ℕ) (m : RetrievalResult),
        m ∈ ms → m.chunk_id ∉ dict.map (fun r => r.chunk_id) →
        ∃ x ∈ mergeCoreAux dict idx ms, convertedFrom x m := by
  intro ms
  induction ms with
  | nil => intro _ dict idx m hm; cases hm
  | cons m0 ms ih =>
    intro hM dict idx m hm hnot
    rw [List.pairwise_cons] at hM
    rw [mergeCoreAux]
    rcases List.mem_cons.mp hm with rfl | hm
    · rw [if_neg (fun hc => hnot (contains_true_iff.mp hc))]
      refine ⟨convertMcp m (dict.length + idx + 1), ?_, convertedFrom_convertMcp m _⟩
      exact subset_mergeCoreAux ms _ (idx + 1) _ (List.mem_append_right _ (by simp))
    · by_cases hin : ((dict.map fun r => r.chunk_id).contains m0.chunk_id) = true
      · rw [if_pos hin]
        exact ih hM.2 dict (idx + 1) m hm hnot
      · rw [if_neg hin]
        refine ih hM.2 _ (idx + 1) m hm ?_
        rw [List.map_append]
        intro hc
        rcases List.mem_append.mp hc with h | h
        · exact hnot h
        · have he : m.chunk_id = m0.chunk_id := by
            simpa [convertMcp] using List.mem_singleton.mp h
          exact (hM.1 m hm) he.symm

theorem take_range' (k s n : ℕ) :
    (List.range' s n).take k = List.range' s (min k n) := by
  induction n generalizing k s with
  | zero => simp
  | succ n ih =>
    cases k with
    | zero => simp
    | succ k =>
      rw [List.range'_succ, List.take_succ_cons, ih k (s + 1), Nat.succ_min_succ,
        List.range'_succ]

/-- C1 (amended): provided the external result list is NONEMPTY and
chunk_ids are unique within the local list and within the external list,
the merge step produces the list keyed by chunk_id in which every external
result whose chunk_id already appears locally is skipped (the local entry is
kept unchanged), every other external result appears converted with
`primary_score = rerank_score = combined_score = its retrieval score`, the
merged list is sorted by non-increasing combined_score with ranks
reassigned 1..N, and the output is the truncation to the configured top-k.
With an EMPTY external list the node returns the existing ranked list
unchanged (no re-sort, re-rank or truncation). -/
theorem merge_mcp_results_spec :
    (∀ (locals : List RankedResult) (limit : ℕ), mergeMcpResults locals [] limit = locals)
    ∧ ∀ (locals : List RankedResult) (mcp : List RetrievalResult) (limit : ℕ),
        mcp ≠ [] →
        ((locals.map fun r => r.chunk_id).Nodup) →
        ((mcp.map fun m => m.chunk_id).Nodup) →
        mergeMcpResults locals mcp limit =
            (assignRanks (sortByCombined (mergeCore locals mcp))).take limit
        ∧ ((sortByCombined (mergeCore locals mcp)).map fun r => r.chunk_id).Perm
            ((locals.map fun r => r.chunk_id) ++
              ((mcp.filter fun m =>
                !((locals.map fun r => r.chunk_id).contains m.chunk_id)).map
                fun m => m.chunk_id))
        ∧ (∀ r ∈ locals, ∀ r' ∈ sortByCombined (mergeCore locals mcp),
            r'.chunk_id = r.chunk_id → r' = r)
        ∧ (∀ m ∈ mcp, m.chunk_id ∉ locals.map (fun r => r.chunk_id) →
            ∃ x ∈ sortByCombined (mergeCore locals mcp), convertedFrom x m)
        ∧ List.Sorted byCombined (mergeMcpResults locals mcp limit)
        ∧ ((mergeMcpResults locals mcp limit).map fun x => x.rank) =
            List.range' 1 (mergeMcpResults locals mcp limit).length
        ∧ (mergeMcpResults locals mcp limit).length =
            min limit (sortByCombined (mergeCore locals mcp)).length := by
  constructor
  · intro locals limit
    rfl
  · intro locals mcp limit hne hL hM
    obtain ⟨a, l, rfl⟩ := List.exists_cons_of_ne_nil hne
    have hdict : dictOfRanked locals = locals := dictOfRanked_eq_self locals hL
    have hMpw : (a :: l).Pairwise fun x y => x.chunk_id ≠ y.chunk_id :=
      List.pairwise_map.mp hM
    have hmm : mergeMcpResults locals (a :: l) limit =
        (assignRanks (sortByCombined (mergeCore locals (a :: l)))).take limit := rfl
    have hsorted := sorted_sortByCombined (mergeCore locals (a :: l))
    have hperm := perm_sortByCombined (mergeCore locals (a :: l))
    have hlen : (mergeMcpResults locals (a :: l) limit).length =
        min limit (sortByCombined (mergeCore locals (a :: l))).length := by
      rw [hmm, List.length_take, assignRanks, length_assignRanksFrom]
    refine ⟨hmm, ?_, ?_, ?_, ?_, ?_, hlen⟩
    · have := mergeCoreAux_keys (a :: l) hMpw (dictOfRanked locals) 0
      rw [hdict] at this
      rw [show mergeCore locals (a :: l) = mergeCoreAux locals 0 (a :: l) by
        rw [mergeCore, hdict]]
      calc ((sortByCombined (mergeCoreAux locals 0 (a :: l))).map fun r => r.chunk_id).Perm
            ((mergeCoreAux locals 0 (a :: l)).map fun r => r.chunk_id) :=
          (perm_sortByCombined _).map _
        _ = _ := this
    · intro r hr r' hr' hkey
      have hr'core : r' ∈ mergeCore locals (a :: l) := hperm.subset hr'
      rw [mergeCore, hdict] at hr'core
      rcases mem_mergeCoreAux (a :: l) locals 0 r' hr'core with h | ⟨m, _, hconv, hnot⟩
      · exact List.inj_on_of_nodup_map hL h hr hkey
      · exact absurd (hkey ▸ List.mem_map_of_mem (fun x => x.chunk_id) hr) hnot
    · intro m hm hnot
      obtain ⟨x, hx, hconv⟩ := mergeCoreAux_adds (a :: l) hMpw locals 0 m hm hnot
      have hxcore : x ∈ mergeCore locals (a :: l) := by
        rw [mergeCore, hdict]
        exact hx
      exact ⟨x, hperm.symm.subset hxcore, hconv⟩
    · rw [hmm]
      exact sorted_take (sorted_assignRanksFrom hsorted 1) limit
    · rw [hmm, assignRanks, List.map_take, map_rank_assignRanksFrom, take_range',
        List.length_take, length_assignRanksFrom]

/-- Local ranked results with chunk ids `{A, B}`. -/
def mergeLocals : List RankedResult :=
  [⟨"A", "pA", "s", "tA", 9 / 10, 9 / 10, 9 / 10, 1, "qdrant"⟩,
   ⟨"B", "pB", "s", "tB", 8 / 10, 8 / 10, 8 / 10, 2, "qdrant"⟩]

/-- External retrieval results with chunk ids `{B, C}`; the external `B`
carries a different paper id and a higher score than the local `B`. -/
def mergeExternals : List RetrievalResult :=
  [⟨"B", "pB2", "s", "tB2", 95 / 100, "mcp_arxiv"⟩,
   ⟨"C", "pC", "s", "tC", 7 / 10, "mcp_arxiv"⟩]

/-- Witness for C1: local `{A, B}` merged with external `{B, C}` satisfies
the merge specification, and concretely yields exactly `{A, B, C}` with
ranks 1..3 and with `B`'s local entry preserved (its combined score stays
0.8, not the external 0.95). -/
theorem merge_mcp_results_witness :
    (mergeExternals ≠ []
      ∧ ((mergeLocals.map fun r => r.chunk_id).Nodup)
      ∧ ((mergeExternals.map fun m => m.chunk_id).Nodup))
    ∧ ((mergeMcpResults mergeLocals mergeExternals 20).map fun r => (r.chunk_id, r.rank)) =
        [("A", 1), ("B", 2), ("C", 3)]
    ∧ ((mergeMcpResults mergeLocals mergeExternals 20).map fun r => r.combined_score) =
        [9 / 10, 8 / 10, 7 / 10]
    ∧ (mergeMcpResults mergeLocals mergeExternals 20 =
          (assignRanks (sortByCombined (mergeCore mergeLocals mergeExternals))).take 20
        ∧ ((sortByCombined (mergeCore mergeLocals mergeExternals)).map fun r => r.chunk_id).Perm
            ((mergeLocals.map fun r => r.chunk_id) ++
              ((mergeExternals.filter fun m =>
                !((mergeLocals.map fun r => r.chunk_id).contains m.chunk_id)).map
                fun m => m.chunk_id))
        ∧ (∀ r ∈ mergeLocals, ∀ r' ∈ sortByCombined (mergeCore mergeLocals mergeExternals),
            r'.chunk_id = r.chunk_id → r' = r)
        ∧ (∀ m ∈ mergeExternals, m.chunk_id ∉ mergeLocals.map (fun r => r.chunk_id) →
            ∃ x ∈ sortByCombined (mergeCore mergeLocals mergeExternals), convertedFrom x m)
        ∧ List.Sorted byCombined (mergeMcpResults mergeLocals mergeExternals 20)
        ∧ ((mergeMcpResults mergeLocals mergeExternals 20).map fun x => x.rank) =
            List.range' 1 (mergeMcpResults mergeLocals mergeExternals 20).length
        ∧ (mergeMcpResults mergeLocals mergeExternals 20).length =
            min 20 (sortByCombined (mergeCore mergeLocals mergeExternals)).length) := by
  refine ⟨⟨by simp [mergeExternals], by decide, by decide⟩, ?_, ?_,
    merge_mcp_results_spec.2 mergeLocals mergeExternals 20 (by simp [mergeExternals])
      (by decide) (by decide)⟩
  · norm_num [mergeMcpResults, mergeLocals, mergeExternals, mergeCore, dictOfRanked,
      insertDictEntry, mergeCoreAux, convertMcp, sortByCombined, List.insertionSort,
      List.orderedInsert, byCombined, assignRanks, assignRanksFrom]
  · norm_num [mergeMcpResults, mergeLocals, mergeExternals, mergeCore, dictOfRanked,
      insertDictEntry, mergeCoreAux, convertMcp, sortByCombined, List.insertionSort,
      List.orderedInsert, byCombined, assignRanks, assignRanksFrom]

/-- Ranked results as the diversity strategy can produce them: contiguous
ranks but combined scores not in descending order. -/
def cexUnsortedLocals : List RankedResult :=
  [⟨"x1", "p1", "s", "t1", 2 / 10, 2 / 10, 2 / 10, 1, "qdrant"⟩,
   ⟨"x2", "p2", "s", "t2", 7 / 10, 7 / 10, 7 / 10, 2, "qdrant"⟩]

/-- Counterexample to C1 as stated: with an EMPTY external result list the
merge node returns the existing ranked list unchanged — no re-sort, no rank
reassignment, no truncation — so the output need not be sorted by
non-increasing combined score. -/
theorem merge_mcp_results_cex :
    mergeMcpResults cexUnsortedLocals [] 20 = cexUnsortedLocals
    ∧ ¬ List.Sorted byCombined (mergeMcpResults cexUnsortedLocals [] 20) := by
  refine ⟨rfl, ?_⟩
  intro h
  rw [show mergeMcpResults cexUnsortedLocals [] 20 = cexUnsortedLocals from rfl,
    cexUnsortedLocals] at h
  have hrel := List.rel_of_sorted_cons h _ (List.mem_cons_self _ _)
  rw [byCombined] at hrel
  norm_num at hrel

theorem finalize_take_after (l : List RankedResult) (k : ℕ) :
    List.Sorted byCombined (assignRanks ((sortByCombined l).take k))
    ∧ ((assignRanks ((sortByCombined l).take k)).map fun x => x.rank) =
        List.range' 1 (assignRanks ((sortByCombined l).take k)).length := by
  refine ⟨sorted_assignRanksFrom (sorted_take (sorted_sortByCombined l) k) 1, ?_⟩
  rw [assignRanks, map_rank_assignRanksFrom, length_assignRanksFrom]

theorem finalize_take_before (l : List RankedResult) (k : ℕ) :
    List.Sorted byCombined ((assignRanks (sortByCombined l)).take k)
    ∧ (((assignRanks (sortByCombined l)).take k).map fun x => x.rank) =
        List.range' 1 ((assignRanks (sortByCombined l)).take k).length := by
  refine ⟨sorted_take (sorted_assignRanksFrom (sorted_sortByCombined l) 1) k, ?_⟩
  rw [assignRanks, List.map_take, map_rank_assignRanksFrom, take_range',
    List.length_take, length_assignRanksFrom]

theorem length_mkDiversityOut (rs : List RetrievalResult) :
    ∀ (n : ℕ) (is : List ℕ), (mkDiversityOut rs n is).length = is.length := by
  intro n is
  induction is generalizing n with
  | nil => rfl
  | cons i is ih => simp only [mkDiversityOut, List.length_cons, ih]

theorem map_rank_mkDiversityOut (rs : List RetrievalResult) :
    ∀ (n : ℕ) (is : List ℕ),
      (mkDiversityOut rs n is).map (fun x => x.rank) = List.range' n is.length := by
  intro n is
  induction is generalizing n with
  | nil => rfl
  | cons i is ih =>
    rw [mkDiversityOut, List.map_cons, List.length_cons, List.range'_succ, ih (n + 1)]
    rfl

/-- C4 (amended): the outputs of the fallback, cross-encoder and ensemble
strategies, and of the merge step run with a NONEMPTY external list, have
ranks forming a contiguous 1..N sequence and are sorted by non-increasing
combined_score.  The diversity (MMR) strategy's output has contiguous 1..N
ranks assigned in selection order, but is NOT necessarily sorted by
combined_score (see the counterexample); likewise the merge step with no
external results returns its input unchanged. -/
theorem rank_invariant_spec :
    (∀ (results : List RetrievalResult) (topK : ℕ),
      List.Sorted byCombined (fallbackRerank results topK)
      ∧ ((fallbackRerank results topK).map fun x => x.rank) =
          List.range' 1 (fallbackRerank results topK).length)
    ∧ (∀ (env : RankEnv) (query : String) (results : List RetrievalResult) (topK : ℕ),
      List.Sorted byCombined (crossEncoderRerank env query results topK)
      ∧ ((crossEncoderRerank env query results topK).map fun x => x.rank) =
          List.range' 1 (crossEncoderRerank env query results topK).length)
    ∧ (∀ (env : RankEnv) (query : String) (results : List RetrievalResult) (topK : ℕ)
        (strategies : List String) (weights : List ℚ) (out : List RankedResult),
      ensembleRerank env query results topK strategies weights = .ok out →
      List.Sorted byCombined out
      ∧ (out.map fun x => x.rank) = List.range' 1 out.length)
    ∧ (∀ (locals : List RankedResult) (mcp : List RetrievalResult) (limit : ℕ),
      mcp ≠ [] →
      List.Sorted byCombined (mergeMcpResults locals mcp limit)
      ∧ ((mergeMcpResults locals mcp limit).map fun x => x.rank) =
          List.range' 1 (mergeMcpResults locals mcp limit).length)
    ∧ (∀ (env : RankEnv) (results : List RetrievalResult) (topK : ℕ) (w : ℚ),
      ((semanticDiversityRerank env results topK w).map fun x => x.rank) =
          List.range' 1 (semanticDiversityRerank env results topK w).length) := by
  have hfall : ∀ (results : List RetrievalResult) (topK : ℕ),
      List.Sorted byCombined (fallbackRerank results topK)
      ∧ ((fallbackRerank results topK).map fun x => x.rank) =
          List.range' 1 (fallbackRerank results topK).length :=
    fun results topK => ⟨sorted_fallbackRerank results topK, ranks_fallbackRerank results topK⟩
  refine ⟨hfall, ?_, ?_, ?_, ?_⟩
  · intro env query results topK
    rw [crossEncoderRerank]
    cases env.ce with
    | none => exact hfall results topK
    | some f =>
      cases results with
      | nil => exact ⟨List.sorted_nil, rfl⟩
      | cons a l => exact finalize_take_after _ topK
  · intro env query results topK strategies weights out hok
    cases results with
    | nil =>
      rw [ensembleRerank, Except.ok.injEq] at hok
      rw [← hok]
      exact ⟨List.sorted_nil, rfl⟩
    | cons a l =>
      rw [ensembleRerank] at hok
      by_cases h1 : strategies.length ≠ weights.length
      · rw [if_pos h1] at hok
        cases hok
      · rw [if_neg h1] at hok
        by_cases h2 : 1 / 100 < |weights.sum - 1|
        · rw [if_pos h2] at hok
          cases hok
        · rw [if_neg h2] at hok
          dsimp only at hok
          cases hmem : (strategies.zip weights).filterMap fun sw =>
              if sw.1 = "cross_encoder" then
                some (crossEncoderRerank env query (a :: l) (a :: l).length, sw.2)
              else if sw.1 = "semantic_diversity" then
                some (semanticDiversityRerank env (a :: l) (a :: l).length (3 / 10), sw.2)
              else none with
          | nil =>
            rw [hmem, Except.ok.injEq] at hok
            rw [← hok]
            exact hfall (a :: l) topK
          | cons m ms =>
            rw [hmem, Except.ok.injEq] at hok
            rw [← hok]
            exact finalize_take_after _ topK
  · intro locals mcp limit hne
    obtain ⟨a, l, rfl⟩ := List.exists_cons_of_ne_nil hne
    exact finalize_take_before (mergeCore locals (a :: l)) limit
  · intro env results topK w
    cases results with
    | nil => rfl
    | cons a l =>
      rw [semanticDiversityRerank]
      cases env.embed with
      | none => exact ranks_fallbackRerank (a :: l) topK
      | some f =>
        rw [map_rank_mkDiversityOut, length_mkDiversityOut]

/-- Three candidates where the two highest-scoring passages are identical
and the weakest is orthogonal to them. -/
def cexDivResults : List RetrievalResult :=
  [⟨"c0", "p0", "s", "t0", 9 / 10, "qdrant"⟩,
   ⟨"c1", "p1", "s", "t1", 85 / 100, "qdrant"⟩,
   ⟨"c2", "p2", "s", "t2", 2 / 10, "qdrant"⟩]

/-- An embedder for which `t0` and `t1` are identical rows and `t2` is
orthogonal. -/
def cexDivEnv : RankEnv :=
  ⟨none, some fun t => if t = "t2" then [0, 1] else [1, 0]⟩

/-- Counterexample to C4 as stated: the diversity (MMR) strategy emits its
output in selection order, which here is combined scores
`[0.9, 0.2, 0.85]` with ranks 1..3 — contiguous ranks, but NOT sorted by
non-increasing combined score: the MMR penalty makes the orthogonal
0.2-score passage outrank the duplicate 0.85-score passage. -/
theorem rank_invariant_cex :
    ((semanticDiversityRerank cexDivEnv cexDivResults 3 (3 / 10)).map
        fun r => (r.combined_score, r.rank)) =
      [(9 / 10, 1), (2 / 10, 2), (85 / 100, 3)]
    ∧ ¬ List.Sorted byCombined (semanticDiversityRerank cexDivEnv cexDivResults 3 (3 / 10)) := by
  have hrange : List.range 3 = [0, 1, 2] := by decide
  have ht0 : (("t0" : String) = "t2") = False := by simp
  have ht1 : (("t1" : String) = "t2") = False := by simp
  have ht2 : (("t2" : String) = "t2") = True := by simp
  have hmap : ((semanticDiversityRerank cexDivEnv cexDivResults 3 (3 / 10)).map
      fun r => (r.combined_score, r.rank)) = [(9 / 10, 1), (2 / 10, 2), (85 / 100, 3)] := by
    norm_num [cexDivResults, cexDivEnv, semanticDiversityRerank, argmaxScore, argmaxGo,
      mmrLoop, pickBest, mmrScore, maxSimTo, dotQ, maxQ, minQ, mkDiversityOut, convertPlain,
      hrange, List.erase, ht0, ht1, ht2]
  refine ⟨hmap, ?_⟩
  intro h
  have hcomb : ((semanticDiversityRerank cexDivEnv cexDivResults 3 (3 / 10)).map
      fun r => r.combined_score) = [9 / 10, 2 / 10, 85 / 100] := by
    have := congrArg (List.map Prod.fst) hmap
    simpa [List.map_map, Function.comp] using this
  have hpw : ((semanticDiversityRerank cexDivEnv cexDivResults 3 (3 / 10)).map
      fun r => r.combined_score).Pairwise descQ := List.pairwise_map.mpr h
  rw [hcomb] at hpw
  have h23 := (List.pairwise_cons.mp (List.pairwise_cons.mp hpw).2).1
  have := h23 (85 / 100) (List.mem_cons_self _ _)
  rw [descQ] at this
  norm_num at this

/-- A concrete ensemble run (cross-encoder unavailable, embedder failing,
so both members fall back deterministically) used to discharge the ensemble
hypothesis of the C4 witness. -/
def wEnsembleOut : List RankedResult := [⟨"c", "p", "s", "t", 1 / 2, 1, 3 / 4, 1, "q"⟩]

/-- Witness for C4: the amended invariants applied at concrete inputs — a
concrete ensemble output and a concrete nonempty merge. -/
theorem rank_invariant_witness :
    (ensembleRerank ⟨none, none⟩ "q" [⟨"c", "p", "s", "t", 1 / 2, "q"⟩] 5
        ["cross_encoder", "semantic_diversity"] [6 / 10, 4 / 10] = .ok wEnsembleOut
      ∧ mergeExternals ≠ [])
    ∧ (List.Sorted byCombined wEnsembleOut
      ∧ (wEnsembleOut.map fun x => x.rank) = List.range' 1 wEnsembleOut.length)
    ∧ (List.Sorted byCombined (mergeMcpResults mergeLocals mergeExternals 20)
      ∧ ((mergeMcpResults mergeLocals mergeExternals 20).map fun x => x.rank) =
          List.range' 1 (mergeMcpResults mergeLocals mergeExternals 20).length) := by
  have hok : ensembleRerank ⟨none, none⟩ "q" [⟨"c", "p", "s", "t", 1 / 2, "q"⟩] 5
      ["cross_encoder", "semantic_diversity"] [6 / 10, 4 / 10] = .ok wEnsembleOut := by
    have habs : ¬((1 : ℚ) / 100 < |([6 / 10, 4 / 10] : List ℚ).sum - 1|) := by
      norm_num
    have hcc : (("cross_encoder" : String) = "cross_encoder") = True := by simp
    have hsc : (("semantic_diversity" : String) = "cross_encoder") = False := by simp
    have hss : (("semantic_diversity" : String) = "semantic_diversity") = True := by simp
    norm_num [ensembleRerank, habs, crossEncoderRerank, semanticDiversityRerank,
      fallbackRerank, convertAllFrom, convertPlain, ensembleScoreOf, rankScoreIn,
      sortByCombined, List.insertionSort, List.orderedInsert, byCombined, assignRanks,
      assignRanksFrom, wEnsembleOut, hcc, hsc, hss, List.filterMap_cons, Nat.max_self]
  refine ⟨⟨hok, by simp [mergeExternals]⟩,
    rank_invariant_spec.2.2.1 ⟨none, none⟩ "q" [⟨"c", "p", "s", "t", 1 / 2, "q"⟩] 5
      ["cross_encoder", "semantic_diversity"] [6 / 10, 4 / 10] wEnsembleOut hok,
    rank_invariant_spec.2.2.2.1 mergeLocals mergeExternals 20 (by simp [mergeExternals])⟩

theorem pyLowerChar_fix_alnum {c : Char} (h : isLowerAlnum c = true) :
    pyLowerChar c = c := by
  rw [pyLowerChar, if_neg]
  simp only [isLowerAlnum, Bool.or_eq_true, Bool.and_eq_true, decide_eq_true_eq] at h
  omega

theorem pyLowerChar_fix_space : pyLowerChar ' ' = ' ' := by decide

theorem punctToSpace_fix_alnum {c : Char} (h : isLowerAlnum c = true) :
    punctToSpace c = c := by
  rw [punctToSpace, if_pos]
  rw [h, Bool.true_or]

theorem punctToSpace_fix_space : punctToSpace ' ' = ' ' := by decide

theorem isPySpace_space : isPySpace ' ' = true := by decide

theorem punctToSpace_out (c : Char) :
    isLowerAlnum (punctToSpace c) = true ∨ isPySpace (punctToSpace c) = true := by
  rw [punctToSpace]
  by_cases h : (isLowerAlnum c || isPySpace c) = true
  · rw [if_pos h]
    rcases Bool.or_eq_true_iff.mp h with h | h
    · exact Or.inl h
    · exact Or.inr h
  · rw [if_neg h]
    exact Or.inr isPySpace_space

theorem mem_collapseAux :
    ∀ (b : Bool) (l : List Char) (c : Char), c ∈ collapseAux b l → c ∈ l ∨ c = ' ' := by
  intro b l
  induction l generalizing b with
  | nil => intro c hc; cases hc
  | cons a rest ih =>
    intro c hc
    rw [collapseAux] at hc
    by_cases ha : isPySpace a = true
    · rw [if_pos ha] at hc
      cases b with
      | true =>
        rcases ih true c hc with h | h
        · exact Or.inl (List.mem_cons_of_mem a h)
        · exact Or.inr h
      | false =>
        rcases List.mem_cons.mp hc with h | h
        · exact Or.inr h
        · rcases ih true c h with h2 | h2
          · exact Or.inl (List.mem_cons_of_mem a h2)
          · exact Or.inr h2
    · rw [if_neg ha] at hc
      rcases List.mem_cons.mp hc with h | h
      · exact Or.inl (h ▸ List.mem_cons_self a rest)
      · rcases ih false c h with h2 | h2
        · exact Or.inl (List.mem_cons_of_mem a h2)
        · exact Or.inr h2

theorem mem_stripChars {l : List Char} {c : Char} (h : c ∈ stripChars l) : c ∈ l := by
  rw [stripChars] at h
  rw [List.mem_reverse] at h
  have h1 := (List.dropWhile_sublist (l := (l.dropWhile isPySpace).reverse) isPySpace).mem h
  rw [List.mem_reverse] at h1
  exact (List.dropWhile_sublist isPySpace).mem h1

theorem splitAux_tokens :
    ∀ (l acc : List Char), (∀ c ∈ acc, isPySpace c = false) →
      ∀ t ∈ splitAux acc l, t ≠ [] ∧ ∀ c ∈ t, (c ∈ acc ∨ c ∈ l) ∧ isPySpace c = false := by
  intro l
  induction l with
  | nil =>
    intro acc hacc t ht
    rw [splitAux] at ht
    by_cases he : acc = []
    · rw [if_pos he] at ht
      cases ht
    · rw [if_neg he] at ht
      rcases List.mem_singleton.mp ht with rfl
      refine ⟨fun hr => he (by simpa using congrArg List.reverse hr), ?_⟩
      intro c hc
      rw [List.mem_reverse] at hc
      exact ⟨Or.inl hc, hacc c hc⟩
  | cons a rest ih =>
    intro acc hacc t ht
    rw [splitAux] at ht
    by_cases ha : isPySpace a = true
    · rw [if_pos ha] at ht
      by_cases he : acc = []
      · rw [if_pos he] at ht
        obtain ⟨h1, h2⟩ := ih [] (by intro c hc; cases hc) t ht
        refine ⟨h1, fun c hc => ?_⟩
        obtain ⟨hsrc, hsp⟩ := h2 c hc
        rcases hsrc with h | h
        · cases h
        · exact ⟨Or.inr (List.mem_cons_of_mem a h), hsp⟩
      · rw [if_neg he] at ht
        rcases List.mem_cons.mp ht with rfl | ht
        · refine ⟨fun hr => he (by simpa using congrArg List.reverse hr), ?_⟩
          intro c hc
          rw [List.mem_reverse] at hc
          exact ⟨Or.inl hc, hacc c hc⟩
        · obtain ⟨h1, h2⟩ := ih [] (by intro c hc; cases hc) t ht
          refine ⟨h1, fun c hc => ?_⟩
          obtain ⟨hsrc, hsp⟩ := h2 c hc
          rcases hsrc with h | h
          · cases h
          · exact ⟨Or.inr (List.mem_cons_of_mem a h), hsp⟩
    · rw [if_neg ha] at ht
      have hacc2 : ∀ c ∈ a :: acc, isPySpace c = false := by
        intro c hc
        rcases List.mem_cons.mp hc with rfl | hc
        · exact Bool.eq_false_iff.mpr ha
        · exact hacc c hc
      obtain ⟨h1, h2⟩ := ih (a :: acc) hacc2 t ht
      refine ⟨h1, fun c hc => ?_⟩
      obtain ⟨hsrc, hsp⟩ := h2 c hc
      rcases hsrc with h | h
      · rcases List.mem_cons.mp h with rfl | h
        · exact ⟨Or.inr (List.mem_cons_self c rest), hsp⟩
        · exact ⟨Or.inl h, hsp⟩
      · exact ⟨Or.inr (List.mem_cons_of_mem a h), hsp⟩

theorem splitWs_tokens {l : List Char} :
    ∀ t ∈ splitWs l, t ≠ [] ∧ ∀ c ∈ t, c ∈ l ∧ isPySpace c = false := by
  intro t ht
  obtain ⟨h1, h2⟩ := splitAux_tokens l [] (by intro c hc; cases hc) t ht
  refine ⟨h1, fun c hc => ?_⟩
  obtain ⟨hsrc, hsp⟩ := h2 c hc
  rcases hsrc with h | h
  · cases h
  · exact ⟨h, hsp⟩

/-- Tokens in normal form: nonempty and made of lowercase alphanumerics. -/
def GoodTokens (ts : List (List Char)) : Prop :=
  ∀ t ∈ ts, t ≠ [] ∧ ∀ c ∈ t, isLowerAlnum c = true

theorem mem_joinSpace :
    ∀ (ts : List (List Char)) (c : Char), c ∈ joinSpace ts →
      (∃ t ∈ ts, c ∈ t) ∨ c = ' ' := by
  intro ts
  induction ts with
  | nil => intro c hc; cases hc
  | cons t ts ih =>
    intro c hc
    cases ts with
    | nil => exact Or.inl ⟨t, List.mem_cons_self t [], hc⟩
    | cons t2 ts2 =>
      rw [joinSpace] at hc
      rcases List.mem_append.mp hc with h | h
      · exact Or.inl ⟨t, List.mem_cons_self _ _, h⟩
      · rcases List.mem_cons.mp h with rfl | h
        · exact Or.inr rfl
        · rcases ih c h with ⟨t', ht', hc'⟩ | h2
          · exact Or.inl ⟨t', List.mem_cons_of_mem t ht', hc'⟩
          · exact Or.inr h2

theorem map_eq_self_of_fix {f : Char → Char} :
    ∀ {l : List Char}, (∀ c ∈ l, f c = c) → l.map f = l := by
  intro l
  induction l with
  | nil => intro _; rfl
  | cons a rest ih =>
    intro h
    rw [List.map_cons, h a (List.mem_cons_self a rest),
      ih fun c hc => h c (List.mem_cons_of_mem a hc)]

theorem joinSpace_chars {ts : List (List Char)} (hG : GoodTokens ts) :
    ∀ c ∈ joinSpace ts, isLowerAlnum c = true ∨ c = ' ' := by
  intro c hc
  rcases mem_joinSpace ts c hc with ⟨t, ht, hct⟩ | h
  · exact Or.inl ((hG t ht).2 c hct)
  · exact Or.inr h

theorem lower_fix_join {ts : List (List Char)} (hG : GoodTokens ts) :
    (joinSpace ts).map pyLowerChar = joinSpace ts := by
  apply map_eq_self_of_fix
  intro c hc
  rcases joinSpace_chars hG c hc with h | rfl
  · exact pyLowerChar_fix_alnum h
  · exact pyLowerChar_fix_space

theorem punct_fix_join {ts : List (List Char)} (hG : GoodTokens ts) :
    (joinSpace ts).map punctToSpace = joinSpace ts := by
  apply map_eq_self_of_fix
  intro c hc
  rcases joinSpace_chars hG c hc with h | rfl
  · exact punctToSpace_fix_alnum h
  · exact punctToSpace_fix_space

theorem isLowerAlnum_not_space {c : Char} (h : isLowerAlnum c = true) :
    isPySpace c = false := by
  simp only [isLowerAlnum, Bool.or_eq_true, Bool.and_eq_true, decide_eq_true_eq] at h
  simp only [isPySpace, Bool.or_eq_false_iff, decide_eq_false_iff_not]
  omega

theorem collapseAux_nonspace_prefix :
    ∀ (a b : List Char), (∀ c ∈ a, isPySpace c = false) →
      collapseAux false (a ++ b) = a ++ collapseAux false b := by
  intro a
  induction a with
  | nil => intro b _; rfl
  | cons c a' ih =>
    intro b ha
    rw [List.cons_append, collapseAux,
      if_neg (by rw [ha c (List.mem_cons_self c a')]; exact Bool.false_ne_true),
      ih b fun x hx => ha x (List.mem_cons_of_mem c hx)]
    rfl

theorem collapseAux_true_head {c : Char} (hc : isPySpace c = false) (l : List Char) :
    collapseAux true (c :: l) = c :: collapseAux false l := by
  rw [collapseAux, if_neg (by rw [hc]; exact Bool.false_ne_true)]

theorem collapse_fix_join :
    ∀ (ts : List (List Char)), GoodTokens ts →
      collapseAux false (joinSpace ts) = joinSpace ts := by
  intro ts
  induction ts with
  | nil => intro _; rfl
  | cons t ts ih =>
    intro hG
    have ht := hG t (List.mem_cons_self t ts)
    have htns : ∀ c ∈ t, isPySpace c = false :=
      fun c hc => isLowerAlnum_not_space (ht.2 c hc)
    have hGts : GoodTokens ts := fun u hu => hG u (List.mem_cons_of_mem t hu)
    cases ts with
    | nil =>
      show collapseAux false (joinSpace [t]) = joinSpace [t]
      rw [joinSpace]
      have h0 := collapseAux_nonspace_prefix t [] htns
      rw [show collapseAux false ([] : List Char) = [] from rfl] at h0
      simpa using h0
    | cons t2 ts2 =>
      rw [joinSpace, collapseAux_nonspace_prefix t _ htns]
      have ht2 := hGts t2 (List.mem_cons_self t2 ts2)
      obtain ⟨c2, t2', rfl⟩ := List.exists_cons_of_ne_nil ht2.1
      have hc2 : isPySpace c2 = false :=
        isLowerAlnum_not_space (ht2.2 c2 (List.mem_cons_self c2 t2'))
      rw [show collapseAux false (' ' :: joinSpace ((c2 :: t2') :: ts2)) =
          ' ' :: collapseAux true (joinSpace ((c2 :: t2') :: ts2)) by
        rw [collapseAux, if_pos isPySpace_space]
        rfl]
      have hij := ih hGts
      cases ts2 with
      | nil =>
        rw [show joinSpace [c2 :: t2'] = c2 :: t2' from rfl] at hij ⊢
        rw [collapseAux_true_head hc2 t2']
        rw [collapseAux, if_neg (by rw [hc2]; exact Bool.false_ne_true)] at hij
        rw [List.cons.injEq] at hij
        rw [hij.2]
      | cons t3 ts3 =>
        rw [show joinSpace ((c2 :: t2') :: t3 :: ts3) =
            c2 :: (t2' ++ ' ' :: joinSpace (t3 :: ts3)) from rfl] at hij ⊢
        rw [collapseAux_true_head hc2 _]
        rw [collapseAux, if_neg (by rw [hc2]; exact Bool.false_ne_true)] at hij
        rw [List.cons.injEq] at hij
        rw [hij.2]

theorem joinSpace_head {ts : List (List Char)} (hG : GoodTokens ts) :
    ts = [] ∨ ∃ c y, joinSpace ts = c :: y ∧ isPySpace c = false := by
  cases ts with
  | nil => exact Or.inl rfl
  | cons t ts' =>
    right
    have ht := hG t (List.mem_cons_self t ts')
    obtain ⟨c, t', rfl⟩ := List.exists_cons_of_ne_nil ht.1
    have hc : isPySpace c = false :=
      isLowerAlnum_not_space (ht.2 c (List.mem_cons_self c t'))
    cases ts' with
    | nil => exact ⟨c, t', rfl, hc⟩
    | cons t2 ts2 => exact ⟨c, t' ++ ' ' :: joinSpace (t2 :: ts2), rfl, hc⟩

theorem joinSpace_reverse_head :
    ∀ (ts : List (List Char)), GoodTokens ts → ts ≠ [] →
      ∃ c y, (joinSpace ts).reverse = c :: y ∧ isPySpace c = false := by
  intro ts
  induction ts with
  | nil => intro _ h; exact absurd rfl h
  | cons t ts ih =>
    intro hG _
    have ht := hG t (List.mem_cons_self t ts)
    cases ts with
    | nil =>
      have hrev : t.reverse ≠ [] := by
        intro h
        exact ht.1 (by simpa using congrArg List.reverse h)
      obtain ⟨c, y, hcy⟩ := List.exists_cons_of_ne_nil hrev
      refine ⟨c, y, hcy, ?_⟩
      have hc : c ∈ t := by
        rw [← List.mem_reverse, hcy]
        exact List.mem_cons_self c y
      exact isLowerAlnum_not_space (ht.2 c hc)
    | cons t2 ts2 =>
      obtain ⟨c, y, hcy, hc⟩ := ih (fun u hu => hG u (List.mem_cons_of_mem t hu))
        (List.cons_ne_nil t2 ts2)
      refine ⟨c, y ++ ' ' :: t.reverse, ?_, hc⟩
      rw [joinSpace, List.reverse_append, List.reverse_cons, List.append_assoc, hcy]
      rfl

theorem strip_fix_join (ts : List (List Char)) (hG : GoodTokens ts) :
    stripChars (joinSpace ts) = joinSpace ts := by
  rcases joinSpace_head hG with rfl | ⟨c, y, hcy, hc⟩
  · rfl
  · rw [stripChars]
    have hdrop : (joinSpace ts).dropWhile isPySpace = joinSpace ts := by
      rw [hcy, List.dropWhile_cons, if_neg (by rw [hc]; exact Bool.false_ne_true)]
    rw [hdrop]
    have hne : ts ≠ [] := by
      intro h
      rw [h] at hcy
      cases hcy
    obtain ⟨c2, y2, hrev, hc2⟩ := joinSpace_reverse_head ts hG hne
    rw [hrev, List.dropWhile_cons, if_neg (by rw [hc2]; exact Bool.false_ne_true), ← hrev,
      List.reverse_reverse]

theorem splitAux_run :
    ∀ (t acc rest : List Char), (∀ c ∈ t, isPySpace c = false) →
      splitAux acc (t ++ rest) = splitAux (t.reverse ++ acc) rest := by
  intro t
  induction t with
  | nil => intro acc rest _; rfl
  | cons c t' ih =>
    intro acc rest h
    rw [List.cons_append, splitAux,
      if_neg (by rw [h c (List.mem_cons_self c t')]; exact Bool.false_ne_true),
      ih (c :: acc) rest fun x hx => h x (List.mem_cons_of_mem c hx),
      List.reverse_cons, List.append_assoc]
    rfl

theorem splitWs_joinSpace :
    ∀ (ts : List (List Char)), GoodTokens ts → splitWs (joinSpace ts) = ts := by
  intro ts
  induction ts with
  | nil => intro _; rfl
  | cons t ts ih =>
    intro hG
    have ht := hG t (List.mem_cons_self t ts)
    have htns : ∀ c ∈ t, isPySpace c = false :=
      fun c hc => isLowerAlnum_not_space (ht.2 c hc)
    have hrevne : t.reverse ≠ [] := by
      intro h
      exact ht.1 (by simpa using congrArg List.reverse h)
    cases ts with
    | nil =>
      show splitAux [] (joinSpace [t]) = [t]
      rw [show joinSpace [t] = t ++ [] by simp [joinSpace], splitAux_run t [] [] htns,
        List.append_nil, splitAux, if_neg hrevne, List.reverse_reverse]
    | cons t2 ts2 =>
      show splitAux [] (joinSpace (t :: t2 :: ts2)) = t :: t2 :: ts2
      rw [joinSpace, splitAux_run t [] _ htns, List.append_nil, splitAux,
        if_pos isPySpace_space, if_neg hrevne, List.reverse_reverse]
      exact congrArg (t :: ·) (ih fun u hu => hG u (List.mem_cons_of_mem t hu))

theorem fpChars_fixed (ts : List (List Char)) (hG : GoodTokens ts)
    (hstop : ∀ t ∈ ts, stopwords.contains (String.mk t) = false) :
    fpChars (joinSpace ts) = joinSpace ts := by
  rw [fpChars, lower_fix_join hG, punct_fix_join hG, collapse_fix_join ts hG,
    strip_fix_join ts hG, splitWs_joinSpace ts hG, List.filter_eq_self.mpr]
  intro t ht
  rw [hstop t ht]
  rfl

/-- C8: the title fingerprint function is idempotent — applying
`_title_fingerprint` to its own output returns that output unchanged, for
every input string. -/
theorem fingerprint_idempotent (s : String) :
    titleFingerprint (titleFingerprint s) = titleFingerprint s := by
  suffices h : fpChars (fpChars s.data) = fpChars s.data by
    rw [titleFingerprint, titleFingerprint]
    exact congrArg String.mk (by simpa using h)
  have hfp : fpChars s.data =
      joinSpace ((splitWs (stripChars (collapseAux false
        ((s.data.map pyLowerChar).map punctToSpace)))).filter
        fun w => !(stopwords.contains (String.mk w))) := rfl
  set kept := (splitWs (stripChars (collapseAux false
      ((s.data.map pyLowerChar).map punctToSpace)))).filter
      (fun w => !(stopwords.contains (String.mk w))) with hkept
  have hG : GoodTokens kept := by
    intro t ht
    have ht' := List.mem_of_mem_filter ht
    obtain ⟨h1, h2⟩ := splitWs_tokens t ht'
    refine ⟨h1, fun c hc => ?_⟩
    obtain ⟨hmem, hsp⟩ := h2 c hc
    have hc2 := mem_stripChars hmem
    rcases mem_collapseAux false _ c hc2 with h3 | rfl
    · rcases List.mem_map.mp h3 with ⟨c0, _, rfl⟩
      rcases punctToSpace_out c0 with h4 | h4
      · exact h4
      · rw [hsp] at h4
        cases h4
    · rw [isPySpace_space] at hsp
      cases hsp
  have hstop : ∀ t ∈ kept, stopwords.contains (String.mk t) = false := by
    intro t ht
    have hp := List.of_mem_filter ht
    simpa using hp
  rw [hfp]
  exact fpChars_fixed kept hG hstop
